import Mathlib

/-!
# Verification of the Feature-4 change-impact pipeline

This file gives a shallow embedding of the diff-based impact analyzer
(`feature_4` in `main_app.py`) and proves or refutes the specification
claims about it.

The embedded pieces are:

* `pySplitlines`, `pyStrip`, `countNl` — the Python string primitives the
  pipeline relies on (`str.splitlines`, `str.strip`, `str.count('\n')`);
* `stripTags` / `cleanAndTruncatePrompt` — the prompt sanitizer
  (`re.sub(r'<[^>]+>', '', …)`, `re.sub(r'[^\x00-\x7F]+', '', …)`,
  `text[:10000]`);
* an embedding of `difflib.SequenceMatcher` / `difflib.unified_diff`
  (with `isjunk=None`, `autojunk=True`, `n=3`, `lineterm=''`), which the
  source uses as its diff engine;
* `computeMetrics` — the change-metrics block (lines added / removed,
  percent changed, blocks changed);
* `safeGenerate` — the retry/fallback wrapper around the generation
  collaborator;
* `riskSub` — the whole-word severity tagging of the risk narrative
  (`re.sub(r'\b(Low|Medium|High)\b', …)`);
* `runFeature` — the per-rerun session-state machine (lazy narrative
  caching and the question/answer cache).
-/

namespace ImpactAnalyzer

/-! ## Python string primitives -/

/-- The line terminators recognised by Python `str.splitlines`. -/
def isLineBreak (c : Char) : Bool :=
  c = '\n' || c = '\r' || c = '\x0b' || c = '\x0c' ||
  c = '\x1c' || c = '\x1d' || c = '\x1e' || c = '\x85' ||
  c.val = 0x2028 || c.val = 0x2029

/-- Worker for `pySplitlines`: splits a character list at line terminators,
treating `'\r''\n'` as a single terminator; a trailing segment without a
terminator is kept, but no empty trailing line is produced. -/
def splitLinesAux : Nat → List Char → List Char → List String
  | 0, _, acc => if acc.isEmpty then [] else [String.mk acc.reverse]
  | _ + 1, [], acc => if acc.isEmpty then [] else [String.mk acc.reverse]
  | fuel + 1, c :: rest, acc =>
      if c = '\r' then
        String.mk acc.reverse ::
          splitLinesAux fuel (if rest.head? = some '\n' then rest.tail else rest) []
      else if isLineBreak c then String.mk acc.reverse :: splitLinesAux fuel rest []
      else splitLinesAux fuel rest (c :: acc)

/-- Python `str.splitlines()`. Every step of `splitLinesAux` consumes at
least one character, so fuel equal to the length runs it to completion
(the fuel-0 case coincides with the end-of-input case). -/
def pySplitlines (s : String) : List String :=
  splitLinesAux s.data.length s.data []

/-- Python `s.count('\n')`: the number of newline characters. -/
def countNl (s : String) : Nat :=
  s.data.count '\n'

/-- Characters stripped by Python `str.strip()` (the `str.isspace`
whitespace class). -/
def pyIsSpace (c : Char) : Bool :=
  c = ' ' || c = '\t' || c = '\n' || c = '\r' || c = '\x0b' || c = '\x0c' ||
  c = '\x1c' || c = '\x1d' || c = '\x1e' || c = '\x1f' || c = '\x85' ||
  c = '\xa0' || c.val = 0x1680 ||
  (0x2000 ≤ c.val && c.val ≤ 0x200a) ||
  c.val = 0x2028 || c.val = 0x2029 || c.val = 0x202f || c.val = 0x205f ||
  c.val = 0x3000

/-- Python `str.strip()`: removes leading and trailing whitespace. -/
def pyStrip (s : String) : String :=
  String.mk (((s.data.dropWhile pyIsSpace).reverse.dropWhile pyIsSpace).reverse)

/-- Python `str.startswith(p)`. -/
def pyStartsWith (s p : String) : Bool :=
  p.data.isPrefixOf s.data

/-! ## The prompt sanitizer (`clean_and_truncate_prompt`) -/

/-- Index of the first `'>'` in a character list, if any. -/
def idxOfGt : List Char → Option Nat
  | [] => none
  | c :: rest => if c = '>' then some 0 else (idxOfGt rest).map (· + 1)

/-- One pass of `re.sub(r'<[^>]+>', '', text)`: at each `'<'`, the regex
matches the span up to the first following `'>'` provided at least one
character lies strictly between them; matched spans are deleted and
scanning resumes after the match. -/
def stripTagsAux : Nat → List Char → List Char
  | 0, cs => cs
  | _ + 1, [] => []
  | fuel + 1, c :: rest =>
      if c = '<' then
        match idxOfGt rest with
        | some k =>
            if k = 0 then c :: stripTagsAux fuel rest
            else stripTagsAux fuel (rest.drop (k + 1))
        | none => c :: stripTagsAux fuel rest
      else c :: stripTagsAux fuel rest

/-- The tag-stripping scan. Every step of `stripTagsAux` consumes at least
one character, so fuel equal to the length runs the scan to completion. -/
def stripTags (cs : List Char) : List Char :=
  stripTagsAux cs.length cs

/-- Does `re.search(r'<[^>]+>', …)` match: is there a `'<'` whose first
following `'>'` lies at least two characters further on? -/
def hasTag : List Char → Bool
  | [] => false
  | c :: rest =>
      if c = '<' then
        match idxOfGt rest with
        | some k => if 1 ≤ k then true else hasTag rest
        | none => hasTag rest
      else hasTag rest

/-- Well-formedness invariant of sanitized text: every `'<'` is either
immediately followed by `'>'` or has no `'>'` anywhere after it — exactly
the configurations in which `<[^>]+>` cannot match. -/
def goodLt (cs : List Char) : Prop :=
  ∀ u v, cs = u ++ '<' :: v → v.head? = some '>' ∨ '>' ∉ v

/-- The fixed truncation bound `MAX_CHARS` of the source. -/
def MAX_CHARS : Nat := 10000

/-- `clean_and_truncate_prompt`: strip `<...>` tags, drop every character
outside `\x00`–`\x7F`, and truncate to `MAX_CHARS` characters. -/
def cleanAndTruncatePrompt (s : String) : String :=
  String.mk (((stripTags s.data).filter (fun c => c.val ≤ 0x7F)).take MAX_CHARS)

/-! ## The diff engine: `difflib.SequenceMatcher` with `isjunk=None`

The source computes
`difflib.unified_diff(old_lines, new_lines, fromfile=…, tofile=…, lineterm='')`.
We embed `SequenceMatcher(None, a, b)` faithfully: `b2j` maps each line of
`b` to its (ascending) list of positions, with the *autojunk* heuristic
dropping "popular" lines when `len(b) >= 200`; `isjunk` is `None`, so the
junk set `bjunk` is empty. -/

/-- Ascending positions of line `s` in `b` (the raw `b2j` entry). -/
def positionsOf (b : List String) (s : String) : List Nat :=
  (List.range b.length).filter (fun j => b.getD j "" = s)

/-- The autojunk test: with `len(b) >= 200`, lines occurring more than
`len(b) // 100 + 1` times are "popular" and removed from `b2j`. -/
def keptElt (b : List String) (s : String) : Bool :=
  !(200 ≤ b.length && b.length / 100 + 1 < (positionsOf b s).length)

/-- `b2j` after junk/popular purging (`isjunk=None`, `autojunk=True`). -/
def b2jOf (b : List String) (s : String) : List Nat :=
  if keptElt b s then positionsOf b s else []

/-- Diagonal-chain bookkeeping for `find_longest_match` on a pair of equal
sequences: `chainA a i j` is the value the `j2len` row map holds at key `j`
after processing row `i` (the length of the run of matched kept positions
ending at `(i, j)`). -/
def chainA (a : List String) : Nat → Nat → Nat
  | 0, j => if j ∈ b2jOf a (a.getD 0 "") then 1 else 0
  | i + 1, 0 => if 0 ∈ b2jOf a (a.getD (i + 1) "") then 1 else 0
  | i + 1, j + 1 =>
      if j + 1 ∈ b2jOf a (a.getD (i + 1) "") then chainA a i j + 1 else 0

/-- The running best match of `find_longest_match`. -/
structure Best where
  i : Nat
  j : Nat
  size : Nat
  deriving DecidableEq, Repr

/-- The inner loop of `find_longest_match` over `b2j[a[irow]]`: positions
below `blo` are skipped (`continue`), the loop stops at the first position
`≥ bhi` (`break`); otherwise `k = j2len.get(j-1, 0) + 1` is recorded in the
new row map and the best match is updated when `k` is a strict
improvement. `prev` is the previous row's `j2len`, `cur` the one being
built (both total maps defaulting to 0). -/
def flmRow (blo bhi irow : Nat) (prev : Nat → Nat) :
    List Nat → (Nat → Nat) → Best → ((Nat → Nat) × Best)
  | [], cur, best => (cur, best)
  | j :: js, cur, best =>
      if j < blo then flmRow blo bhi irow prev js cur best
      else if bhi ≤ j then (cur, best)
      else
        let k := (if j = 0 then 0 else prev (j - 1)) + 1
        let cur' := fun x => if x = j then k else cur x
        let best' := if best.size < k then ⟨irow + 1 - k, j + 1 - k, k⟩ else best
        flmRow blo bhi irow prev js cur' best'

/-- The outer row loop of `find_longest_match`, over rows
`irow, irow+1, …` (`fuel` rows in all, starting from `j2len = {}`). -/
def flmRows (a : List String) (b2j : String → List Nat) (blo bhi : Nat) :
    Nat → Nat → (Nat → Nat) → Best → Best
  | _, 0, _, best => best
  | irow, fuel + 1, prev, best =>
      let (cur, best') :=
        flmRow blo bhi irow prev (b2j (a.getD irow "")) (fun _ => 0) best
      flmRows a b2j blo bhi (irow + 1) fuel cur best'

/-- The junk set `bjunk`: empty, because the matcher is built with
`isjunk=None`. -/
def bjunk : String → Bool := fun _ => false

/-- First extension loop: grow the match backwards over non-junk equal
lines. Each iteration decreases `i` by one and requires `alo < i`, so fuel
equal to the initial `i` runs the loop to completion. -/
def extendBackAux (a b : List String) (alo blo : Nat) : Nat → Best → Best
  | 0, best => best
  | fuel + 1, ⟨i, j, size⟩ =>
      if alo < i ∧ blo < j ∧ bjunk (b.getD (j - 1) "") = false ∧
          a.getD (i - 1) "" = b.getD (j - 1) "" then
        extendBackAux a b alo blo fuel ⟨i - 1, j - 1, size + 1⟩
      else ⟨i, j, size⟩

/-- The backward extension loop of `find_longest_match`. -/
def extendBack (a b : List String) (alo blo : Nat) (best : Best) : Best :=
  extendBackAux a b alo blo best.i best

/-- Second extension loop: grow the match forwards over non-junk equal
lines. Each iteration increases `size` and requires `i + size < ahi`, so
fuel `ahi - size` runs the loop to completion. -/
def extendFwdAux (a b : List String) (ahi bhi : Nat) : Nat → Best → Best
  | 0, best => best
  | fuel + 1, ⟨i, j, size⟩ =>
      if i + size < ahi ∧ j + size < bhi ∧ bjunk (b.getD (j + size) "") = false ∧
          a.getD (i + size) "" = b.getD (j + size) "" then
        extendFwdAux a b ahi bhi fuel ⟨i, j, size + 1⟩
      else ⟨i, j, size⟩

/-- The forward extension loop of `find_longest_match`. -/
def extendFwd (a b : List String) (ahi bhi : Nat) (best : Best) : Best :=
  extendFwdAux a b ahi bhi (ahi - best.size) best

/-- Third extension loop: grow the match backwards over junk equal lines
(vacuous here since `bjunk` is empty, but kept for fidelity). -/
def extendBackJunkAux (a b : List String) (alo blo : Nat) : Nat → Best → Best
  | 0, best => best
  | fuel + 1, ⟨i, j, size⟩ =>
      if alo < i ∧ blo < j ∧ bjunk (b.getD (j - 1) "") = true ∧
          a.getD (i - 1) "" = b.getD (j - 1) "" then
        extendBackJunkAux a b alo blo fuel ⟨i - 1, j - 1, size + 1⟩
      else ⟨i, j, size⟩

/-- The backward junk extension loop of `find_longest_match`. -/
def extendBackJunk (a b : List String) (alo blo : Nat) (best : Best) : Best :=
  extendBackJunkAux a b alo blo best.i best

/-- Fourth extension loop: grow the match forwards over junk equal lines
(vacuous here since `bjunk` is empty, but kept for fidelity). -/
def extendFwdJunkAux (a b : List String) (ahi bhi : Nat) : Nat → Best → Best
  | 0, best => best
  | fuel + 1, ⟨i, j, size⟩ =>
      if i + size < ahi ∧ j + size < bhi ∧ bjunk (b.getD (j + size) "") = true ∧
          a.getD (i + size) "" = b.getD (j + size) "" then
        extendFwdJunkAux a b ahi bhi fuel ⟨i, j, size + 1⟩
      else ⟨i, j, size⟩

/-- The forward junk extension loop of `find_longest_match`. -/
def extendFwdJunk (a b : List String) (ahi bhi : Nat) (best : Best) : Best :=
  extendFwdJunkAux a b ahi bhi (ahi - best.size) best

/-- `SequenceMatcher.find_longest_match(alo, ahi, blo, bhi)`. -/
def flm (a b : List String) (b2j : String → List Nat)
    (alo ahi blo bhi : Nat) : Best :=
  let best0 := flmRows a b2j blo bhi alo (ahi - alo) (fun _ => 0) ⟨alo, blo, 0⟩
  extendFwdJunk a b ahi bhi
    (extendBackJunk a b alo blo
      (extendFwd a b ahi bhi (extendBack a b alo blo best0)))

/-- The recursive block collection of `get_matching_blocks`. Python uses an
explicit stack and then sorts the collected triples by position; since the
`i`-ranges of the recursive calls are disjoint, an in-order traversal
produces exactly that sorted list. `fuel` bounds the recursion depth (any
`fuel > (ahi - alo) + (bhi - blo)` is enough, as each recursive call
strictly shrinks the range). -/
def matchBlocksRec (a b : List String) (b2j : String → List Nat) :
    Nat → Nat → Nat → Nat → Nat → List (Nat × Nat × Nat)
  | 0, _, _, _, _ => []
  | fuel + 1, alo, ahi, blo, bhi =>
      let best := flm a b b2j alo ahi blo bhi
      if best.size = 0 then []
      else
        (if alo < best.i ∧ blo < best.j then
          matchBlocksRec a b b2j fuel alo best.i blo best.j
        else []) ++
        (best.i, best.j, best.size) ::
        (if best.i + best.size < ahi ∧ best.j + best.size < bhi then
          matchBlocksRec a b b2j fuel (best.i + best.size) ahi
            (best.j + best.size) bhi
        else [])

/-- The adjacency-merging pass at the end of `get_matching_blocks`:
consecutive triples that touch are coalesced, zero-length leaders are
dropped. -/
def mergeBlocks : Nat × Nat × Nat → List (Nat × Nat × Nat) → List (Nat × Nat × Nat)
  | (i1, j1, k1), [] => if k1 ≠ 0 then [(i1, j1, k1)] else []
  | (i1, j1, k1), (i2, j2, k2) :: rest =>
      if i1 + k1 = i2 ∧ j1 + k1 = j2 then mergeBlocks (i1, j1, k1 + k2) rest
      else
        (if k1 ≠ 0 then [(i1, j1, k1)] else []) ++ mergeBlocks (i2, j2, k2) rest

/-- `SequenceMatcher.get_matching_blocks()`, including the final sentinel
`(len(a), len(b), 0)`. -/
def matchingBlocks (a b : List String) : List (Nat × Nat × Nat) :=
  mergeBlocks (0, 0, 0)
    (matchBlocksRec a b (b2jOf b) (a.length + b.length + 1) 0 a.length 0 b.length)
  ++ [(a.length, b.length, 0)]

/-- Edit-operation tags of `get_opcodes`. -/
inductive Tag
  | replace
  | delete
  | insert
  | equal
  deriving DecidableEq, Repr

/-- An opcode `(tag, i1, i2, j1, j2)`. -/
structure Opcode where
  tag : Tag
  i1 : Nat
  i2 : Nat
  j1 : Nat
  j2 : Nat
  deriving DecidableEq, Repr

/-- The loop of `get_opcodes` over the matching blocks. -/
def opcodesLoop : Nat → Nat → List (Nat × Nat × Nat) → List Opcode
  | _, _, [] => []
  | i, j, (ai, bj, size) :: rest =>
      (if i < ai ∧ j < bj then [⟨Tag.replace, i, ai, j, bj⟩]
       else if i < ai then [⟨Tag.delete, i, ai, j, bj⟩]
       else if j < bj then [⟨Tag.insert, i, ai, j, bj⟩]
       else []) ++
      (if size ≠ 0 then [⟨Tag.equal, ai, ai + size, bj, bj + size⟩] else []) ++
      opcodesLoop (ai + size) (bj + size) rest

/-- `SequenceMatcher.get_opcodes()`. -/
def getOpcodes (a b : List String) : List Opcode :=
  opcodesLoop 0 0 (matchingBlocks a b)

/-- The context radius `n = 3` of `unified_diff`. -/
def CONTEXT : Nat := 3

/-- Trim a leading `equal` opcode to at most `n` context lines. -/
def fixFirst (n : Nat) : List Opcode → List Opcode
  | ⟨Tag.equal, i1, i2, j1, j2⟩ :: rest =>
      ⟨Tag.equal, max i1 (i2 - n), i2, max j1 (j2 - n), j2⟩ :: rest
  | codes => codes

/-- Trim a trailing `equal` opcode to at most `n` context lines. -/
def fixLast (n : Nat) : List Opcode → List Opcode
  | [] => []
  | [⟨Tag.equal, i1, i2, j1, j2⟩] =>
      [⟨Tag.equal, i1, min i2 (i1 + n), j1, min j2 (j1 + n)⟩]
  | c :: rest => c :: fixLast n rest

/-- The grouping loop of `get_grouped_opcodes`: a large `equal` opcode
closes the current group (keeping `n` lines of context on each side); a
final group consisting of a single `equal` opcode is not emitted. -/
def groupedLoop (n : Nat) : List Opcode → List Opcode → List (List Opcode)
  | [], group =>
      if group ≠ [] ∧ ¬(group.length = 1 ∧ (group.getD 0 ⟨Tag.equal, 0, 0, 0, 0⟩).tag = Tag.equal)
      then [group] else []
  | ⟨tag, i1, i2, j1, j2⟩ :: rest, group =>
      if tag = Tag.equal ∧ 2 * n < i2 - i1 then
        (group ++ [⟨tag, i1, min i2 (i1 + n), j1, min j2 (j1 + n)⟩]) ::
          groupedLoop n rest [⟨tag, max i1 (i2 - n), i2, max j1 (j2 - n), j2⟩]
      else groupedLoop n rest (group ++ [⟨tag, i1, i2, j1, j2⟩])

/-- `SequenceMatcher.get_grouped_opcodes(3)` as used by `unified_diff`:
an empty opcode list is replaced by a dummy `equal`, leading and trailing
context is clipped, and the groups are assembled. -/
def groupedOpcodes (a b : List String) : List (List Opcode) :=
  let codes0 := getOpcodes a b
  let codes1 := if codes0 = [] then [⟨Tag.equal, 0, 1, 0, 1⟩] else codes0
  groupedLoop CONTEXT (fixLast CONTEXT (fixFirst CONTEXT codes1)) []

/-! ## `difflib.unified_diff` output and the edit script -/

/-- Python list slicing `l[i:j]` (with clamping). -/
def slice (l : List String) (i j : Nat) : List String :=
  (l.drop i).take (j - i)

/-- `difflib._format_range_unified(start, stop)` (with
`length = stop - start` inlined). -/
def formatRangeUnified (start stop : Nat) : String :=
  if stop - start = 1 then toString (start + 1)
  else toString (if stop - start = 0 then start else start + 1) ++ "," ++
    toString (stop - start)

/-- The body lines emitted for one group of opcodes: context lines carry a
`' '` prefix, removed lines `'-'`, added lines `'+'`. -/
def groupLines (a b : List String) : List Opcode → List String
  | [] => []
  | ⟨tag, i1, i2, j1, j2⟩ :: rest =>
      (match tag with
       | Tag.equal => (slice a i1 i2).map (fun l => " " ++ l)
       | Tag.replace =>
           (slice a i1 i2).map (fun l => "-" ++ l) ++
           (slice b j1 j2).map (fun l => "+" ++ l)
       | Tag.delete => (slice a i1 i2).map (fun l => "-" ++ l)
       | Tag.insert => (slice b j1 j2).map (fun l => "+" ++ l)) ++
      groupLines a b rest

/-- The `@@ -… +… @@` hunk header of a group. -/
def hunkHeader (g : List Opcode) : String :=
  let dflt : Opcode := ⟨Tag.equal, 0, 0, 0, 0⟩
  let first := g.getD 0 dflt
  let last := g.getD (g.length - 1) dflt
  "@@ -" ++ formatRangeUnified first.i1 last.i2 ++
  " +" ++ formatRangeUnified first.j1 last.j2 ++ " @@"

/-- `difflib.unified_diff(a, b, fromfile, tofile, lineterm='')`, as a list
of lines: the two file headers are emitted once before the first group
(and not at all when there are no groups), then each group contributes a
hunk header and its body lines. Dates are empty, so the headers are
`'--- ' + fromfile` and `'+++ ' + tofile`. -/
def unifiedDiffLines (a b : List String) (fromfile tofile : String) : List String :=
  match groupedOpcodes a b with
  | [] => []
  | g :: gs =>
      ("--- " ++ fromfile) :: ("+++ " ++ tofile) ::
        (g :: gs).flatMap (fun gg => hunkHeader gg :: groupLines a b gg)

/-- `'\n'.join(lines)`. -/
def joinNl : List String → String
  | [] => ""
  | [l] => l
  | l :: rest => l ++ "\n" ++ joinNl rest

/-- The joined unified-diff text (`full_diff_text` in the source). -/
def fullDiffText (a b : List String) (fromfile tofile : String) : String :=
  joinNl (unifiedDiffLines a b fromfile tofile)

/-- One operation of the edit script, in the spec's sense: an added,
removed, or context line. -/
inductive EditOp
  | add (text : String)
  | remove (text : String)
  | context (text : String)
  deriving DecidableEq, Repr

/-- The edit-script operations underlying one group of opcodes: exactly
the operations whose lines `groupLines` renders. -/
def groupOps (a b : List String) : List Opcode → List EditOp
  | [] => []
  | ⟨tag, i1, i2, j1, j2⟩ :: rest =>
      (match tag with
       | Tag.equal => (slice a i1 i2).map EditOp.context
       | Tag.replace =>
           (slice a i1 i2).map EditOp.remove ++ (slice b j1 j2).map EditOp.add
       | Tag.delete => (slice a i1 i2).map EditOp.remove
       | Tag.insert => (slice b j1 j2).map EditOp.add) ++
      groupOps a b rest

/-- The edit script computed for a pair of line sequences: the ADD /
REMOVE / CONTEXT operations of the emitted unified diff, in order. -/
def editScript (a b : List String) : List EditOp :=
  (groupedOpcodes a b).flatMap (groupOps a b)

/-- Is this operation an ADD? -/
def EditOp.isAdd : EditOp → Bool
  | EditOp.add _ => true
  | _ => false

/-- Is this operation a REMOVE? -/
def EditOp.isRemove : EditOp → Bool
  | EditOp.remove _ => true
  | _ => false

/-- The text carried by an operation. -/
def EditOp.text : EditOp → String
  | EditOp.add t => t
  | EditOp.remove t => t
  | EditOp.context t => t

/-! ## The change metrics -/

/-- Round half to even at the given denominator: the behaviour of Python's
`round` on the exact value. -/
def roundHalfEven (q : ℚ) : ℤ :=
  let f := ⌊q⌋
  let r := q - f
  if r < 1 / 2 then f
  else if 1 / 2 < r then f + 1
  else if f % 2 = 0 then f else f + 1

/-- `round(x, 2)` on the exact rational value. -/
def round2 (q : ℚ) : ℚ :=
  (roundHalfEven (q * 100) : ℚ) / 100

/-- The metrics record computed by the dashboard block. -/
structure ChangeMetrics where
  lines_added : Nat
  lines_removed : Nat
  percent_changed : ℚ
  blocks_changed : Nat
  deriving DecidableEq, Repr

/-- `lines_added`: the diff-text lines starting with `'+'` but not
`'+++'`. -/
def linesAdded (old_code new_code fromfile tofile : String) : Nat :=
  ((pySplitlines
      (fullDiffText (pySplitlines old_code) (pySplitlines new_code) fromfile tofile)).filter
    (fun l => pyStartsWith l "+" && !pyStartsWith l "+++")).length

/-- `lines_removed`: the diff-text lines starting with `'-'` but not
`'---'`. -/
def linesRemoved (old_code new_code fromfile tofile : String) : Nat :=
  ((pySplitlines
      (fullDiffText (pySplitlines old_code) (pySplitlines new_code) fromfile tofile)).filter
    (fun l => pyStartsWith l "-" && !pyStartsWith l "---")).length

/-- `total_lines = len(old_lines) or 1` (Python `or` on an integer:
substitute 1 exactly when the length is 0). -/
def totalLines (old_code : String) : Nat :=
  if (pySplitlines old_code).length = 0 then 1 else (pySplitlines old_code).length

/-- `code_blocks_changed = abs(old_code.count('\n') // 5 - new_code.count('\n') // 5)`. -/
def blocksChanged (old_code new_code : String) : Nat :=
  ((countNl old_code / 5 : ℤ) - (countNl new_code / 5 : ℤ)).natAbs

/-- The change-metrics computation of `feature_4`:

* `old_lines` / `new_lines` via `str.splitlines()`;
* `full_diff_text` via `difflib.unified_diff(…, lineterm='')`, joined
  with `'\n'`;
* `lines_added` counts diff lines starting with `'+'` but not `'+++'`,
  `lines_removed` those starting with `'-'` but not `'---'`;
* `percent_change = round((lines_added + lines_removed) / total_lines * 100, 2)`. -/
def computeMetrics (old_code new_code fromfile tofile : String) : ChangeMetrics :=
  ⟨linesAdded old_code new_code fromfile tofile,
   linesRemoved old_code new_code fromfile tofile,
   round2 (((linesAdded old_code new_code fromfile tofile : ℚ) +
       (linesRemoved old_code new_code fromfile tofile : ℚ)) /
       (totalLines old_code : ℚ) * 100),
   blocksChanged old_code new_code⟩

/-! ## `safe_generate`: retry, backoff and fallback

The generation collaborator (`model.generate_content(p).text`) is
modelled as a function `gen : Nat → String → Except String String` from
the call index and the prompt to either the raw response text or an
exception. `safe_generate` cleans the prompt, tries it up to `retries`
times — catching the exception and sleeping 2 seconds after each failed
attempt — and after exhausting the retries issues one call with the fixed
fallback prompt. That last call is *outside* the `try`, so its exception
propagates. -/

/-- The fixed fallback prompt of `safe_generate`. -/
def FALLBACK_PROMPT : String :=
  "Explain this code change or answer a general question about code quality."

/-- Decidable equality for collaborator outcomes. -/
instance : DecidableEq (Except String String) := fun a b =>
  match a, b with
  | Except.ok x, Except.ok y =>
      if h : x = y then isTrue (by rw [h]) else isFalse (by simp [h])
  | Except.error x, Except.error y =>
      if h : x = y then isTrue (by rw [h]) else isFalse (by simp [h])
  | Except.ok _, Except.error _ => isFalse (by simp)
  | Except.error _, Except.ok _ => isFalse (by simp)

/-- The observable outcome of one `safe_generate` invocation: the result
(or the propagated exception), the prompts sent in order, and the sleep
durations performed. -/
structure SGOutcome where
  result : Except String String
  calls : List String
  sleeps : List Nat
  deriving DecidableEq, Repr

/-- The retry loop of `safe_generate`: `idx` is the index of the next
collaborator call, `p` the cleaned prompt. When the retry budget is
exhausted, the fallback prompt is sent unguarded. -/
def sgLoop (gen : Nat → String → Except String String) (p : String) :
    Nat → Nat → SGOutcome
  | idx, 0 =>
      ⟨(gen idx FALLBACK_PROMPT).map pyStrip, [FALLBACK_PROMPT], []⟩
  | idx, retries + 1 =>
      match gen idx p with
      | Except.ok t => ⟨Except.ok (pyStrip t), [p], []⟩
      | Except.error _ =>
          let rest := sgLoop gen p (idx + 1) retries
          ⟨rest.result, p :: rest.calls, 2 :: rest.sleeps⟩

/-- `safe_generate(prompt, retries=3)` (with the call counter starting at
`idx`). -/
def safeGenerate (gen : Nat → String → Except String String)
    (prompt : String) (retries : Nat) : SGOutcome :=
  sgLoop gen (cleanAndTruncatePrompt prompt) 0 retries

/-! ## Severity tagging of the risk text -/

/-- The word-character class of `re`'s `\b`, over the ASCII range
(alphanumerics and underscore; the pipeline text is ASCII-centric, so the
additional non-ASCII word characters of Python's Unicode `\w` are not
modelled). -/
def isWordChar (c : Char) : Bool :=
  c.isAlphanum || c = '_'

/-- The alternation `(Low|Medium|High)`, in the regex's order. -/
def sevTokens : List String := ["Low", "Medium", "High"]

/-- The replacement mapping of the severity `re.sub` lambda. -/
def sevTag (w : String) : String :=
  if w = "Low" then "🟢 Low"
  else if w = "Medium" then "🟡 Medium"
  else if w = "High" then "🔴 High"
  else w

/-- The trailing word boundary of `\b` at a position: end of input or a
non-word character. -/
def afterBoundary : List Char → Bool
  | [] => true
  | c :: _ => !isWordChar c

/-- Attempt to match `\b(Low|Medium|High)\b` at the head of `cs`, the
alternatives tried in order: the token must be a prefix and the position
after it must be a word boundary. The boundary *before* the match is the
scanner's responsibility. -/
def matchSev (cs : List Char) : Option String :=
  sevTokens.find? (fun t =>
    t.data.isPrefixOf cs && afterBoundary (cs.drop t.length))

/-- The `re.sub` scan for `\b(Low|Medium|High)\b`: at each position a
match is attempted (also requiring a word boundary on the left, i.e. the
previous character, tracked in `prevWord`, must not be a word character);
on a match the tagged replacement is emitted and scanning resumes after
the token. Each step consumes at least one character, so fuel equal to
the length runs the scan to completion. -/
def riskScanAux : Nat → Bool → List Char → List Char
  | 0, _, cs => cs
  | _ + 1, _, [] => []
  | fuel + 1, prevWord, c :: rest =>
      if prevWord then c :: riskScanAux fuel (isWordChar c) rest
      else
        match matchSev (c :: rest) with
        | some t =>
            (sevTag t).data ++ riskScanAux fuel true ((c :: rest).drop t.length)
        | none => c :: riskScanAux fuel (isWordChar c) rest

/-- The severity post-processing
`re.sub(r'\b(Low|Medium|High)\b', lambda m: {…}[m.group(0)], raw_risk)`. -/
def riskSub (s : String) : String :=
  String.mk (riskScanAux s.data.length false s.data)

/-- Specification-side description of the severity substitution, phrased
as the spec phrases it: decompose the text into maximal runs of word
characters; a run that is exactly a bare severity token is replaced by
its marker-tagged variant, and everything else is left unchanged. -/
def wordWiseAux : Nat → List Char → List Char
  | 0, cs => cs
  | _ + 1, [] => []
  | fuel + 1, c :: rest =>
      if isWordChar c then
        (sevTag (String.mk ((c :: rest).takeWhile isWordChar))).data ++
          wordWiseAux fuel ((c :: rest).dropWhile isWordChar)
      else c :: wordWiseAux fuel rest

/-- Specification-side whole-word severity substitution. -/
def wordWiseSub (s : String) : String :=
  String.mk (wordWiseAux s.data.length s.data)

/-! ## The session-state machine of `feature_4`

One Streamlit rerun of the block guarded by `if old_code and new_code:`.
`st.session_state` is modelled by `SessionState`; the narrative
collaborator is abstracted at the granularity of `safe_generate`
invocations as a total function `sg : Nat → String → String` from the
call index (within the rerun) and the prompt to the returned text. -/

/-- The session state: the three lazily cached narratives (absent keys as
`none`), and the question/answer cache (initialised to `""`). -/
structure SessionState where
  impact_text : Option String
  rec_text : Option String
  risk_text : Option String
  user_question : String
  qa_answer : String
  deriving DecidableEq, Repr

/-- The state of a fresh session: no keys set. -/
def initialSession : SessionState := ⟨none, none, none, "", ""⟩

/-- The impact prompt template. -/
def impactPrompt (safe_diff : String) : String :=
  "Analyze this code diff and explain the impact:\n\n" ++ safe_diff

/-- The recommendations prompt template. -/
def recPrompt (safe_diff : String) : String :=
  "As a senior engineer, suggest improvements for this diff:\n\n" ++ safe_diff

/-- The risk prompt template. -/
def riskPrompt (safe_diff : String) : String :=
  "Assess the risk of each change in this code diff with severity tags (Low, Medium, High):\n\n"
    ++ safe_diff

/-- Decimal rendering of a metric percentage (a rational with at most two
decimal places) as Python's float formatting renders it inside the Q&A
context f-string. -/
def percentRepr (q : ℚ) : String :=
  let k := roundHalfEven (q * 100)
  let n := k.natAbs
  let sign := if k < 0 then "-" else ""
  if n % 100 = 0 then sign ++ toString (n / 100) ++ ".0"
  else if n % 10 = 0 then sign ++ toString (n / 100) ++ "." ++ toString (n % 100 / 10)
  else if n % 100 < 10 then sign ++ toString (n / 100) ++ ".0" ++ toString (n % 100)
  else sign ++ toString (n / 100) ++ "." ++ toString (n % 100)

/-- The bounded Q&A context assembled from the cached narratives (first
1000 characters each) and the metrics. -/
def qaContext (impact rec risk : String) (m : ChangeMetrics) : String :=
  "Summary: " ++ String.mk (impact.data.take 1000) ++ "\n" ++
  "Recommendations: " ++ String.mk (rec.data.take 1000) ++ "\n" ++
  "Risks: " ++ String.mk (risk.data.take 1000) ++ "\n" ++
  "Changes: +" ++ toString m.lines_added ++ ", -" ++ toString m.lines_removed ++
  ", ~" ++ percentRepr m.percent_changed ++ "%"

/-- The Q&A prompt template. -/
def qaPrompt (context question : String) : String :=
  "You are an expert AI assistant. Based on the report below, answer the user's question clearly.\n\n"
    ++ context ++ "\n\nQuestion: " ++ question ++ "\n\nAnswer:"

/-- The observable outcome of one rerun: the resulting session state, the
metrics shown (when the guard was taken), and the numbers of
`safe_generate` invocations made for narratives and for the Q&A. -/
structure RunResult where
  state : SessionState
  metrics : Option ChangeMetrics
  narrativeCalls : Nat
  qaCalls : Nat
  deriving DecidableEq, Repr

/-- One rerun of the analysis block: if either code text is empty the
whole block is skipped; otherwise the diff and metrics are computed, each
absent narrative is generated once and cached (the risk text through the
severity substitution), and a non-empty question different from the
cached one triggers exactly one Q&A generation and replaces the cached
question and answer. -/
def runFeature (sg : Nat → String → String) (st : SessionState)
    (old_code new_code old_title new_title question : String) : RunResult :=
  if old_code = "" ∨ new_code = "" then ⟨st, none, 0, 0⟩
  else
    let old_lines := pySplitlines old_code
    let new_lines := pySplitlines new_code
    let full_diff_text := fullDiffText old_lines new_lines old_title new_title
    let safe_diff := cleanAndTruncatePrompt full_diff_text
    let m := computeMetrics old_code new_code old_title new_title
    let (impact, c1) :=
      match st.impact_text with
      | some t => (t, 0)
      | none => (sg 0 (impactPrompt safe_diff), 1)
    let (rec_text, c2) :=
      match st.rec_text with
      | some t => (t, 0)
      | none => (sg c1 (recPrompt safe_diff), 1)
    let (risk, c3) :=
      match st.risk_text with
      | some t => (t, 0)
      | none => (riskSub (sg (c1 + c2) (riskPrompt safe_diff)), 1)
    let triggered := question ≠ "" ∧ question ≠ st.user_question
    let answer :=
      if triggered then
        sg (c1 + c2 + c3) (qaPrompt (qaContext impact rec_text risk m) question)
      else st.qa_answer
    ⟨⟨some impact, some rec_text, some risk,
      if triggered then question else st.user_question, answer⟩,
     some m, c1 + c2 + c3, if triggered then 1 else 0⟩

/-! ## Helper lemmas -/

/-- A string none of whose characters is a line terminator. -/
def noTermStr (s : String) : Prop :=
  ∀ c ∈ s.data, isLineBreak c = false

/-- `noTermStr` is decidable. -/
instance (s : String) : Decidable (noTermStr s) := by
  unfold noTermStr
  infer_instance

/-- `(a ++ b).data` unfolds to `a.data ++ b.data`. -/
theorem data_append (a b : String) : (a ++ b).data = a.data ++ b.data := by
  cases a; cases b; rfl

/-- `roundHalfEven` is the identity on integers. -/
theorem roundHalfEven_intCast (z : ℤ) : roundHalfEven (z : ℚ) = z := by
  unfold roundHalfEven
  rw [Int.floor_intCast]
  norm_num

/-- `round(x, 2)` is the identity on integers. -/
theorem round2_intCast (z : ℤ) : round2 ((z : ℚ)) = (z : ℚ) := by
  unfold round2
  rw [show ((z : ℚ) * 100) = (((z * 100 : ℤ)) : ℚ) by push_cast; ring,
    roundHalfEven_intCast]
  push_cast
  ring

/-- Evaluation helper: rewrite the percent expression once the ratio has
been computed to an integer. -/
theorem round2_ratio_eq (la lr t : ℕ) (z : ℤ)
    (h : (((la : ℚ) + (lr : ℚ)) / (t : ℚ) * 100) = (z : ℚ)) :
    round2 (((la : ℚ) + (lr : ℚ)) / (t : ℚ) * 100) = (z : ℚ) := by
  rw [h, round2_intCast]

/-- `total_lines = len(old_lines) or 1` equals `max 1 len(old_lines)`. -/
theorem totalLines_eq_max (old_code : String) :
    totalLines old_code = max 1 (pySplitlines old_code).length := by
  unfold totalLines
  split <;> omega

/-- Field view of `computeMetrics`: added lines. -/
theorem computeMetrics_lines_added (o n f t : String) :
    (computeMetrics o n f t).lines_added = linesAdded o n f t := by
  unfold computeMetrics
  dsimp only

/-- Field view of `computeMetrics`: removed lines. -/
theorem computeMetrics_lines_removed (o n f t : String) :
    (computeMetrics o n f t).lines_removed = linesRemoved o n f t := by
  unfold computeMetrics
  dsimp only

/-! ## Claim theorems -/

/-- C1: for every pair of input texts, `percent_changed` equals
`round(100*(lines_added+lines_removed)/max(1, number of old lines), 2)`;
in particular the denominator floor of 1 applies when the old text has
zero lines: old empty and new of 3 lines yields `lines_added = 3`,
`lines_removed = 0`, `percent_changed = 300.0`. -/
theorem percent_changed_formula :
    (∀ old_code new_code fromfile tofile : String,
      (computeMetrics old_code new_code fromfile tofile).percent_changed =
        round2 ((100 : ℚ) *
          (((computeMetrics old_code new_code fromfile tofile).lines_added : ℚ) +
            ((computeMetrics old_code new_code fromfile tofile).lines_removed : ℚ)) /
          ((max 1 (pySplitlines old_code).length : ℕ) : ℚ))) ∧
    (computeMetrics "" "a\nb\nc" "" "").lines_added = 3 ∧
    (computeMetrics "" "a\nb\nc" "" "").lines_removed = 0 ∧
    (computeMetrics "" "a\nb\nc" "" "").percent_changed = 300 := by
  have hm : computeMetrics "" "a\nb\nc" "" "" = ⟨3, 0, 300, 0⟩ := by
    unfold computeMetrics
    rw [show linesAdded "" "a\nb\nc" "" "" = 3 from by decide,
      show linesRemoved "" "a\nb\nc" "" "" = 0 from by decide,
      show totalLines "" = 1 from by decide,
      show blocksChanged "" "a\nb\nc" = 0 from by decide,
      round2_ratio_eq 3 0 1 300 (by norm_num)]
    norm_num
  refine ⟨fun old_code new_code fromfile tofile => ?_, ?_, ?_, ?_⟩
  · simp only [computeMetrics]
    rw [← totalLines_eq_max]
    congr 1
    ring
  · rw [hm]
  · rw [hm]
  · rw [hm]

/-- C5 counterexample: for old text `"a\nb\nc\nd\ne"` (5 lines, 4 newline
characters) and new text `"x"` (1 line, 0 newline characters), the code
yields `blocks_changed = abs(4//5 - 0//5) = 0`, while the claimed formula
over line counts gives `abs(5//5 - 1//5) = 1`. -/
theorem blocks_changed_not_line_counts :
    ¬ ((computeMetrics "a\nb\nc\nd\ne" "x" "F" "T").blocks_changed =
      ((((pySplitlines "a\nb\nc\nd\ne").length : ℤ) / 5) -
        (((pySplitlines "x").length : ℤ) / 5)).natAbs) := by
  decide

/-- C5 (amended): `blocks_changed` equals
`abs(old_newline_count // 5 - new_newline_count // 5)`, where the counts
are of `'\n'` characters of the two texts (`str.count('\n')`), not of
their lines. -/
theorem blocks_changed_newline_formula (old_code new_code fromfile tofile : String) :
    (computeMetrics old_code new_code fromfile tofile).blocks_changed =
      (((countNl old_code : ℤ) / 5) - ((countNl new_code : ℤ) / 5)).natAbs := by
  rfl

/-- C10: if either code text is the empty string, the guarded analysis
block is skipped entirely: no metrics are produced, no narrative
generation happens, and the session state is unchanged. -/
theorem skip_on_empty_input (sg : Nat → String → String) (st : SessionState)
    (old_code new_code old_title new_title question : String)
    (h : old_code = "" ∨ new_code = "") :
    runFeature sg st old_code new_code old_title new_title question =
      ⟨st, none, 0, 0⟩ := by
  unfold runFeature
  rw [if_pos h]

/-- Witness for `skip_on_empty_input` at a concrete input. -/
theorem skip_on_empty_input_witness :
    runFeature (fun _ p => p) initialSession "" "x\ny" "f" "t" "q" =
      ⟨initialSession, none, 0, 0⟩ :=
  skip_on_empty_input (fun _ p => p) initialSession "" "x\ny" "f" "t" "q"
    (Or.inl rfl)

/-- C8: the follow-up answer is cached keyed by the exact question
string — re-submitting the cached question performs no generation call
and keeps the cached answer, while a different non-empty question
triggers exactly one generation call and replaces the cached question and
answer. (Narratives are taken as already cached, as they are after the
first rerun of the report.) -/
theorem qa_answer_cache (sg : Nat → String → String) (st : SessionState)
    (old_code new_code old_title new_title question ia rc rk : String)
    (hi : st.impact_text = some ia) (hr : st.rec_text = some rc)
    (hk : st.risk_text = some rk)
    (ho : old_code ≠ "") (hn : new_code ≠ "") (hq : question ≠ "") :
    (question = st.user_question →
      (runFeature sg st old_code new_code old_title new_title question).state.qa_answer
          = st.qa_answer ∧
      (runFeature sg st old_code new_code old_title new_title question).state.user_question
          = st.user_question ∧
      (runFeature sg st old_code new_code old_title new_title question).qaCalls = 0) ∧
    (question ≠ st.user_question →
      (runFeature sg st old_code new_code old_title new_title question).qaCalls = 1 ∧
      (runFeature sg st old_code new_code old_title new_title question).state.qa_answer =
        sg 0 (qaPrompt
          (qaContext ia rc rk (computeMetrics old_code new_code old_title new_title))
          question) ∧
      (runFeature sg st old_code new_code old_title new_title question).state.user_question
          = question) := by
  unfold runFeature
  rw [if_neg (by tauto)]
  simp only [hi, hr, hk]
  constructor
  · intro hsame
    simp [hsame]
  · intro hdiff
    simp [hq, hdiff]

/-- Witness for `qa_answer_cache` at a concrete input: with all three
narratives cached and `"prev"` the cached question, asking `"next"`
makes exactly one generation call and replaces the answer. -/
theorem qa_answer_cache_witness :
    ("next" = (⟨some "I", some "R", some "K", "prev", "ans"⟩ : SessionState).user_question →
      (runFeature (fun _ p => p) ⟨some "I", some "R", some "K", "prev", "ans"⟩
          "a" "b" "f" "t" "next").state.qa_answer
          = (⟨some "I", some "R", some "K", "prev", "ans"⟩ : SessionState).qa_answer ∧
      (runFeature (fun _ p => p) ⟨some "I", some "R", some "K", "prev", "ans"⟩
          "a" "b" "f" "t" "next").state.user_question
          = (⟨some "I", some "R", some "K", "prev", "ans"⟩ : SessionState).user_question ∧
      (runFeature (fun _ p => p) ⟨some "I", some "R", some "K", "prev", "ans"⟩
          "a" "b" "f" "t" "next").qaCalls = 0) ∧
    ("next" ≠ (⟨some "I", some "R", some "K", "prev", "ans"⟩ : SessionState).user_question →
      (runFeature (fun _ p => p) ⟨some "I", some "R", some "K", "prev", "ans"⟩
          "a" "b" "f" "t" "next").qaCalls = 1 ∧
      (runFeature (fun _ p => p) ⟨some "I", some "R", some "K", "prev", "ans"⟩
          "a" "b" "f" "t" "next").state.qa_answer =
        (fun (_ : Nat) (p : String) => p) 0
          (qaPrompt (qaContext "I" "R" "K" (computeMetrics "a" "b" "f" "t")) "next") ∧
      (runFeature (fun _ p => p) ⟨some "I", some "R", some "K", "prev", "ans"⟩
          "a" "b" "f" "t" "next").state.user_question = "next") :=
  qa_answer_cache (fun _ p => p) ⟨some "I", some "R", some "K", "prev", "ans"⟩
    "a" "b" "f" "t" "next" "I" "R" "K" rfl rfl rfl
    (by decide) (by decide) (by decide)

/-- C3 counterexample: a collaborator that fails on every call makes
`safe_generate` raise — the unguarded fallback call's exception
propagates to the caller, so narrative generation *can* surface a hard
failure. -/
theorem safe_generate_can_raise :
    (safeGenerate (fun _ _ => Except.error "boom") "p" 3).result =
      Except.error "boom" := by
  decide

/-- C3 (amended): each generation is retried up to 3 attempts with a
2-second sleep after every failed attempt; after the third failure the
fixed fallback prompt is issued exactly once with no further retries —
but that final call is unguarded, so its outcome (including a failure) is
returned as-is rather than being caught. -/
theorem safe_generate_retry_fallback (gen : Nat → String → Except String String)
    (p : String) :
    ((∀ t, gen 0 (cleanAndTruncatePrompt p) ≠ Except.ok t) →
      (∀ t, gen 1 (cleanAndTruncatePrompt p) ≠ Except.ok t) →
      (∀ t, gen 2 (cleanAndTruncatePrompt p) ≠ Except.ok t) →
      safeGenerate gen p 3 =
        ⟨(gen 3 FALLBACK_PROMPT).map pyStrip,
         [cleanAndTruncatePrompt p, cleanAndTruncatePrompt p,
          cleanAndTruncatePrompt p, FALLBACK_PROMPT],
         [2, 2, 2]⟩) ∧
    (∀ t, gen 0 (cleanAndTruncatePrompt p) = Except.ok t →
      safeGenerate gen p 3 =
        ⟨Except.ok (pyStrip t), [cleanAndTruncatePrompt p], []⟩) ∧
    (∀ t, (∀ u, gen 0 (cleanAndTruncatePrompt p) ≠ Except.ok u) →
      gen 1 (cleanAndTruncatePrompt p) = Except.ok t →
      safeGenerate gen p 3 =
        ⟨Except.ok (pyStrip t),
         [cleanAndTruncatePrompt p, cleanAndTruncatePrompt p], [2]⟩) ∧
    (∀ t, (∀ u, gen 0 (cleanAndTruncatePrompt p) ≠ Except.ok u) →
      (∀ u, gen 1 (cleanAndTruncatePrompt p) ≠ Except.ok u) →
      gen 2 (cleanAndTruncatePrompt p) = Except.ok t →
      safeGenerate gen p 3 =
        ⟨Except.ok (pyStrip t),
         [cleanAndTruncatePrompt p, cleanAndTruncatePrompt p,
          cleanAndTruncatePrompt p], [2, 2]⟩) := by
  have exErr : ∀ (x : Except String String), (∀ t, x ≠ Except.ok t) →
      ∃ e, x = Except.error e := by
    intro x hx
    cases x with
    | ok t => exact absurd rfl (hx t)
    | error e => exact ⟨e, rfl⟩
  refine ⟨?_, ?_, ?_, ?_⟩
  · intro h0 h1 h2
    obtain ⟨e0, hg0⟩ := exErr _ h0
    obtain ⟨e1, hg1⟩ := exErr _ h1
    obtain ⟨e2, hg2⟩ := exErr _ h2
    unfold safeGenerate
    simp [sgLoop, hg0, hg1, hg2]
  · intro t h0
    unfold safeGenerate
    simp [sgLoop, h0]
  · intro t h0 h1
    obtain ⟨e0, hg0⟩ := exErr _ h0
    unfold safeGenerate
    simp [sgLoop, hg0, h1]
  · intro t h0 h1 h2
    obtain ⟨e0, hg0⟩ := exErr _ h0
    obtain ⟨e1, hg1⟩ := exErr _ h1
    unfold safeGenerate
    simp [sgLoop, hg0, hg1, h2]

/-- Witness for `safe_generate_retry_fallback`: an always-failing
collaborator takes the exhaustion path. -/
theorem safe_generate_retry_fallback_witness :
    safeGenerate (fun _ _ => Except.error "e") "p" 3 =
      ⟨(( fun (_ : Nat) (_ : String) => (Except.error "e" : Except String String)) 3
          FALLBACK_PROMPT).map pyStrip,
       [cleanAndTruncatePrompt "p", cleanAndTruncatePrompt "p",
        cleanAndTruncatePrompt "p", FALLBACK_PROMPT],
       [2, 2, 2]⟩ :=
  (safe_generate_retry_fallback (fun _ _ => Except.error "e") "p").1
    (fun t h => by simp at h) (fun t h => by simp at h) (fun t h => by simp at h)

/-- C4 counterexample: with an echoing collaborator, running the pipeline
on the pair `("a", "b")` caches an impact narrative; re-running on the
different pair `("c", "d")` keeps that cached narrative verbatim, makes
no generation call, and in particular does not produce the impact
narrative of the new pair — the cache is not invalidated when the
snapshots change. -/
theorem narrative_cache_stale_across_pairs :
    ((runFeature (fun _ p => p)
        ((runFeature (fun _ p => p) initialSession "a" "b" "f" "t" "").state)
        "c" "d" "f" "t" "").state.impact_text =
      (runFeature (fun _ p => p) initialSession "a" "b" "f" "t" "").state.impact_text) ∧
    ((runFeature (fun _ p => p) initialSession "a" "b" "f" "t" "").state.impact_text =
      some (impactPrompt (cleanAndTruncatePrompt
        (fullDiffText (pySplitlines "a") (pySplitlines "b") "f" "t")))) ∧
    ((runFeature (fun _ p => p)
        ((runFeature (fun _ p => p) initialSession "a" "b" "f" "t" "").state)
        "c" "d" "f" "t" "").state.impact_text ≠
      some (impactPrompt (cleanAndTruncatePrompt
        (fullDiffText (pySplitlines "c") (pySplitlines "d") "f" "t")))) ∧
    ((runFeature (fun _ p => p)
        ((runFeature (fun _ p => p) initialSession "a" "b" "f" "t" "").state)
        "c" "d" "f" "t" "").narrativeCalls = 0) := by
  decide

/-- C4 (amended): the narrative caches are scoped to the Streamlit
session, not to the snapshot pair: once set they are served unchanged on
every later rerun — with zero generation calls — whatever snapshot pair
that rerun analyses, and the Q&A answer cache is keyed only by the
question string. -/
theorem narrative_cache_session_scoped (sg : Nat → String → String)
    (st : SessionState) (old_code new_code old_title new_title question t1 t2 t3 : String)
    (h1 : st.impact_text = some t1) (h2 : st.rec_text = some t2)
    (h3 : st.risk_text = some t3) (ho : old_code ≠ "") (hn : new_code ≠ "") :
    (runFeature sg st old_code new_code old_title new_title question).state.impact_text
        = some t1 ∧
    (runFeature sg st old_code new_code old_title new_title question).state.rec_text
        = some t2 ∧
    (runFeature sg st old_code new_code old_title new_title question).state.risk_text
        = some t3 ∧
    (runFeature sg st old_code new_code old_title new_title question).narrativeCalls = 0 ∧
    (question = "" ∨ question = st.user_question →
      (runFeature sg st old_code new_code old_title new_title question).state.qa_answer
        = st.qa_answer) := by
  unfold runFeature
  rw [if_neg (by tauto)]
  simp only [h1, h2, h3]
  refine ⟨by trivial, by trivial, by trivial, by trivial, ?_⟩
  intro hq
  have : ¬(question ≠ "" ∧ question ≠ st.user_question) := by tauto
  simp [this]

/-- Witness for `narrative_cache_session_scoped` at a concrete input. -/
theorem narrative_cache_session_scoped_witness :
    (runFeature (fun _ p => p) ⟨some "I", some "R", some "K", "q0", "a0"⟩
        "x" "y" "f" "t" "").state.impact_text = some "I" ∧
    (runFeature (fun _ p => p) ⟨some "I", some "R", some "K", "q0", "a0"⟩
        "x" "y" "f" "t" "").state.rec_text = some "R" ∧
    (runFeature (fun _ p => p) ⟨some "I", some "R", some "K", "q0", "a0"⟩
        "x" "y" "f" "t" "").state.risk_text = some "K" ∧
    (runFeature (fun _ p => p) ⟨some "I", some "R", some "K", "q0", "a0"⟩
        "x" "y" "f" "t" "").narrativeCalls = 0 ∧
    ("" = "" ∨ "" = (⟨some "I", some "R", some "K", "q0", "a0"⟩ : SessionState).user_question →
      (runFeature (fun _ p => p) ⟨some "I", some "R", some "K", "q0", "a0"⟩
        "x" "y" "f" "t" "").state.qa_answer
        = (⟨some "I", some "R", some "K", "q0", "a0"⟩ : SessionState).qa_answer) :=
  narrative_cache_session_scoped (fun _ p => p)
    ⟨some "I", some "R", some "K", "q0", "a0"⟩ "x" "y" "f" "t" "" "I" "R" "K"
    rfl rfl rfl (by decide) (by decide)

/-- C2 counterexample: for old text `"a"` and new text `"a\n++x"`, the
edit script contains exactly one ADD operation (the content line
`"++x"`), but its emitted diff line `"+++x"` is filtered out by the
`startswith('+++')` header test, so `lines_added = 0` — a true content
ADD operation is not counted. -/
theorem lines_added_misses_plusplus_content :
    ¬ ((computeMetrics "a" "a\n++x" "f" "t").lines_added =
      ((editScript (pySplitlines "a") (pySplitlines "a\n++x")).filter
        EditOp.isAdd).length) := by
  decide

/-! ## Lemmas for the sanitizer claim -/

/-- The empty list is well formed. -/
theorem goodLt_nil : goodLt [] := by
  intro u v h
  exact absurd h (by simp)

/-- Well-formedness passes to the tail. -/
theorem goodLt_tail {c : Char} {cs : List Char} (h : goodLt (c :: cs)) :
    goodLt cs := by
  intro u v huv
  exact h (c :: u) v (by rw [huv]; rfl)

/-- Consing a non-`'<'` character preserves well-formedness. -/
theorem goodLt_cons_of_ne {c : Char} {cs : List Char} (hc : c ≠ '<')
    (h : goodLt cs) : goodLt (c :: cs) := by
  intro u v huv
  cases u with
  | nil =>
      simp only [List.nil_append, List.cons.injEq] at huv
      exact absurd huv.1 hc
  | cons a u' =>
      simp only [List.cons_append, List.cons.injEq] at huv
      exact h u' v huv.2

/-- Consing `'<'` before a list headed by `'>'` preserves well-formedness. -/
theorem goodLt_cons_lt_of_head_gt {cs : List Char} (hh : cs.head? = some '>')
    (h : goodLt cs) : goodLt ('<' :: cs) := by
  intro u v huv
  cases u with
  | nil =>
      simp only [List.nil_append, List.cons.injEq] at huv
      exact Or.inl (huv.2 ▸ hh)
  | cons a u' =>
      simp only [List.cons_append, List.cons.injEq] at huv
      exact h u' v huv.2

/-- Consing `'<'` before a `'>'`-free list preserves well-formedness. -/
theorem goodLt_cons_lt_of_no_gt {cs : List Char} (hg : '>' ∉ cs)
    (h : goodLt cs) : goodLt ('<' :: cs) := by
  intro u v huv
  cases u with
  | nil =>
      simp only [List.nil_append, List.cons.injEq] at huv
      refine Or.inr (fun hmem => hg ?_)
      rw [huv.2]
      exact hmem
  | cons a u' =>
      simp only [List.cons_append, List.cons.injEq] at huv
      exact h u' v huv.2

/-- Unfolding `idxOfGt` past a non-`'>'` head. -/
theorem idxOfGt_cons_ne {c : Char} (hc : c ≠ '>') (rest : List Char) :
    idxOfGt (c :: rest) = (idxOfGt rest).map (· + 1) := by
  simp [idxOfGt, hc]

/-- `idxOfGt` is `none` exactly on `'>'`-free lists. -/
theorem idxOfGt_eq_none {cs : List Char} (h : idxOfGt cs = none) : '>' ∉ cs := by
  induction cs with
  | nil => simp
  | cons c rest ih =>
      intro hmem
      by_cases hc : c = '>'
      · subst hc
        simp [idxOfGt] at h
      · rw [idxOfGt_cons_ne hc] at h
        rcases List.mem_cons.mp hmem with h1 | h1
        · exact hc h1.symm
        · exact ih (by cases hidx : idxOfGt rest <;> simp [hidx] at h ⊢) h1

/-- Tag stripping only deletes characters. -/
theorem stripTagsAux_sublist (fuel : Nat) (cs : List Char) :
    (stripTagsAux fuel cs).Sublist cs := by
  induction fuel generalizing cs with
  | zero => exact List.Sublist.refl cs
  | succ fuel ih =>
      cases cs with
      | nil => exact List.Sublist.refl []
      | cons c rest =>
          by_cases hc : c = '<'
          · subst hc
            simp only [stripTagsAux, if_pos rfl]
            cases hidx : idxOfGt rest with
            | some k =>
                by_cases hk : k = 0
                · simpa [hk] using List.Sublist.cons₂ '<' (ih rest)
                · simp only [hk, if_neg]
                  exact ((ih (rest.drop (k + 1))).trans
                    (List.drop_sublist (k + 1) rest)).cons '<'
            | none => exact List.Sublist.cons₂ '<' (ih rest)
          · simp only [stripTagsAux, if_neg hc]
            exact List.Sublist.cons₂ c (ih rest)

/-- Tag stripping keeps a leading `'>'`. -/
theorem stripTagsAux_gt_head (fuel : Nat) (rest' : List Char) :
    (stripTagsAux fuel ('>' :: rest')).head? = some '>' := by
  cases fuel with
  | zero => rfl
  | succ fuel' =>
      simp [stripTagsAux, show ('>' : Char) ≠ '<' from by decide]

/-- If `idxOfGt` finds an index then the list contains `'>'`. -/
theorem mem_of_idxOfGt_some {cs : List Char} {k : Nat}
    (h : idxOfGt cs = some k) : '>' ∈ cs := by
  induction cs generalizing k with
  | nil => simp [idxOfGt] at h
  | cons r rest ih =>
      by_cases hr : r = '>'
      · simp [hr]
      · rw [idxOfGt_cons_ne hr] at h
        cases h2 : idxOfGt rest with
        | none => rw [h2] at h; simp at h
        | some k' => exact List.mem_cons_of_mem r (ih h2)

/-- Tag stripping establishes the well-formedness invariant. -/
theorem goodLt_stripTagsAux (fuel : Nat) (cs : List Char)
    (hfuel : cs.length ≤ fuel) : goodLt (stripTagsAux fuel cs) := by
  induction fuel generalizing cs with
  | zero =>
      have : cs = [] := List.length_eq_zero.mp (by omega)
      subst this
      exact goodLt_nil
  | succ fuel ih =>
      cases cs with
      | nil => exact goodLt_nil
      | cons c rest =>
          have hrest : rest.length ≤ fuel := by
            simp only [List.length_cons] at hfuel
            omega
          by_cases hc : c = '<'
          · subst hc
            simp only [stripTagsAux, if_pos rfl]
            cases hidx : idxOfGt rest with
            | some k =>
                by_cases hk : k = 0
                · subst hk
                  have hhead : rest.head? = some '>' := by
                    cases rest with
                    | nil => simp [idxOfGt] at hidx
                    | cons r rest' =>
                        by_cases hr : r = '>'
                        · simp [hr]
                        · rw [idxOfGt_cons_ne hr] at hidx
                          cases h2 : idxOfGt rest' <;> simp [h2] at hidx
                  simp only [if_pos rfl]
                  refine goodLt_cons_lt_of_head_gt ?_ (ih rest hrest)
                  cases rest with
                  | nil => simp [idxOfGt] at hidx
                  | cons r rest' =>
                      have hr : r = '>' := by simpa using hhead
                      subst hr
                      exact stripTagsAux_gt_head fuel rest'
                · simp only [hk, if_neg]
                  exact ih (rest.drop (k + 1)) (by
                    have := List.length_drop (k + 1) rest
                    omega)
            | none =>
                refine goodLt_cons_lt_of_no_gt ?_ (ih rest hrest)
                intro hmem
                exact idxOfGt_eq_none hidx
                  ((stripTagsAux_sublist fuel rest).subset hmem)
          · simp only [stripTagsAux, if_neg hc]
            exact goodLt_cons_of_ne hc (ih rest hrest)

/-- Filtering with a predicate that keeps `'>'` preserves the invariant. -/
theorem goodLt_filter (p : Char → Bool) (hp : p '>' = true) {cs : List Char}
    (h : goodLt cs) : goodLt (cs.filter p) := by
  induction cs with
  | nil => simpa using h
  | cons c rest ih =>
      by_cases hpc : p c = true
      · rw [List.filter_cons_of_pos hpc]
        by_cases hc : c = '<'
        · subst hc
          rcases h [] rest rfl with hhead | hng
          · cases rest with
            | nil => simp at hhead
            | cons r rest' =>
                have hr : r = '>' := by simpa using hhead
                subst hr
                refine goodLt_cons_lt_of_head_gt ?_ (ih (goodLt_tail h))
                rw [List.filter_cons_of_pos hp]
                rfl
          · refine goodLt_cons_lt_of_no_gt ?_ (ih (goodLt_tail h))
            intro hmem
            exact hng (List.mem_of_mem_filter hmem)
        · exact goodLt_cons_of_ne hc (ih (goodLt_tail h))
      · rw [List.filter_cons_of_neg (by simpa using hpc)]
        exact ih (goodLt_tail h)

/-- Truncation preserves the invariant. -/
theorem goodLt_take (n : Nat) {cs : List Char} (h : goodLt cs) :
    goodLt (cs.take n) := by
  intro u v huv
  have hcs : cs = u ++ '<' :: (v ++ cs.drop n) := by
    conv_lhs => rw [← List.take_append_drop n cs]
    rw [huv]
    simp
  rcases h u (v ++ cs.drop n) hcs with hhead | hng
  · cases v with
    | nil => exact Or.inr (by simp)
    | cons x v' => exact Or.inl (by simpa using hhead)
  · exact Or.inr (fun hmem => hng (List.mem_append_left _ hmem))

/-- On well-formed text the tag regex cannot match. -/
theorem hasTag_eq_false {cs : List Char} (h : goodLt cs) :
    hasTag cs = false := by
  induction cs with
  | nil => rfl
  | cons c rest ih =>
      by_cases hc : c = '<'
      · subst hc
        simp only [hasTag, if_pos rfl]
        rcases h [] rest rfl with hhead | hng
        · cases rest with
          | nil => simp at hhead
          | cons r rest' =>
              have hr : r = '>' := by simpa using hhead
              subst hr
              have : idxOfGt ('>' :: rest') = some 0 := by simp [idxOfGt]
              rw [this]
              simpa using ih (goodLt_tail h)
        · have : idxOfGt rest = none := by
            cases hidx : idxOfGt rest with
            | none => rfl
            | some k => exact absurd (mem_of_idxOfGt_some hidx) hng
          rw [this]
          exact ih (goodLt_tail h)
      · simp only [hasTag, if_neg hc]
        exact ih (goodLt_tail h)

/-- C7 counterexample: the sanitizer keeps every ASCII character,
including non-printable control characters — on input `"a\nb"` the output
still contains the (non-printable) newline, so the sanitized text is not
restricted to the 7-bit *printable* range. -/
theorem sanitizer_keeps_control_chars :
    cleanAndTruncatePrompt "a\nb" = "a\nb" ∧
    ¬ (∀ c ∈ (cleanAndTruncatePrompt "a\nb").data,
        0x20 ≤ c.val ∧ c.val ≤ 0x7e) := by
  decide

/-- C7 (amended): the sanitizer removes all `<...>` markup tags, removes
every character outside the 7-bit (ASCII `\x00`–`\x7F`) range — keeping
ASCII control characters — and truncates to at most 10000 characters; the
output therefore is at most 10000 characters of ASCII with no complete
markup tag. -/
theorem sanitizer_ascii_bounded_tagfree (s : String) :
    (cleanAndTruncatePrompt s).length ≤ MAX_CHARS ∧
    (∀ c ∈ (cleanAndTruncatePrompt s).data, c.val ≤ 0x7F) ∧
    hasTag (cleanAndTruncatePrompt s).data = false := by
  refine ⟨?_, ?_, ?_⟩
  · show (String.mk _).length ≤ MAX_CHARS
    simp [String.length, List.length_take]
  · intro c hc
    have hmem := List.mem_of_mem_take hc
    have := List.mem_filter.mp hmem
    simpa using this.2
  · exact hasTag_eq_false (goodLt_take _
      (goodLt_filter _ (by decide)
        (goodLt_stripTagsAux s.data.length s.data le_rfl)))

/-! ## Lemmas for the severity-substitution claim -/

/-- A non-word head matches no severity token. -/
theorem matchSev_none_of_not_word {c : Char} (hc : isWordChar c = false)
    (rest : List Char) : matchSev (c :: rest) = none := by
  have hL : (('L' : Char) == c) = false := by
    refine beq_eq_false_iff_ne.mpr (fun h => ?_)
    rw [← h] at hc
    exact absurd hc (by decide)
  have hM : (('M' : Char) == c) = false := by
    refine beq_eq_false_iff_ne.mpr (fun h => ?_)
    rw [← h] at hc
    exact absurd hc (by decide)
  have hH : (('H' : Char) == c) = false := by
    refine beq_eq_false_iff_ne.mpr (fun h => ?_)
    rw [← h] at hc
    exact absurd hc (by decide)
  have pLow : ("Low".data.isPrefixOf (c :: rest)) = false := by
    rw [show "Low".data = 'L' :: "ow".data from rfl, List.isPrefixOf_cons₂, hL]
    rfl
  have pMed : ("Medium".data.isPrefixOf (c :: rest)) = false := by
    rw [show "Medium".data = 'M' :: "edium".data from rfl, List.isPrefixOf_cons₂, hM]
    rfl
  have pHigh : ("High".data.isPrefixOf (c :: rest)) = false := by
    rw [show "High".data = 'H' :: "igh".data from rfl, List.isPrefixOf_cons₂, hH]
    rfl
  unfold matchSev sevTokens
  rw [List.find?_cons_of_neg _ (by simp [pLow]),
    List.find?_cons_of_neg _ (by simp [pMed]),
    List.find?_cons_of_neg _ (by simp [pHigh])]
  rfl

/-- A found severity token is one of the three and fits inside the text. -/
theorem matchSev_some_facts {cs : List Char} {t : String}
    (h : matchSev cs = some t) :
    t ∈ sevTokens ∧ t.data.isPrefixOf cs = true ∧
      afterBoundary (cs.drop t.length) = true ∧ 1 ≤ t.length ∧
      t.length ≤ cs.length := by
  have hmem := List.mem_of_find?_eq_some h
  have hpred := List.find?_some h
  have hsplit := Bool.and_eq_true_iff.mp hpred
  have hcases : t = "Low" ∨ t = "Medium" ∨ t = "High" := by
    have hmem2 : t ∈ ["Low", "Medium", "High"] := hmem
    rcases List.mem_cons.mp hmem2 with h | h
    · exact Or.inl h
    rcases List.mem_cons.mp h with h | h
    · exact Or.inr (Or.inl h)
    rcases List.mem_cons.mp h with h | h
    · exact Or.inr (Or.inr h)
    · cases h
  have hlen : 1 ≤ t.length := by
    rcases hcases with rfl | rfl | rfl <;> decide
  have hle : t.length ≤ cs.length :=
    List.IsPrefix.length_le (List.isPrefixOf_iff_prefix.mp hsplit.1)
  exact ⟨hmem, hsplit.1, hsplit.2, hlen, hle⟩

/-- The scan ignores extra fuel. -/
theorem riskScanAux_congr : ∀ (f1 f2 : Nat) (b : Bool) (cs : List Char),
    cs.length ≤ f1 → cs.length ≤ f2 →
    riskScanAux f1 b cs = riskScanAux f2 b cs := by
  intro f1
  induction f1 with
  | zero =>
      intro f2 b cs h1 h2
      have : cs = [] := List.length_eq_zero.mp (by omega)
      subst this
      cases f2 <;> rfl
  | succ g1 ih =>
      intro f2 b cs h1 h2
      cases cs with
      | nil => cases f2 <;> rfl
      | cons c rest =>
          cases f2 with
          | zero => simp at h2
          | succ g2 =>
              simp only [List.length_cons] at h1 h2
              simp only [riskScanAux]
              cases b with
              | true =>
                  rw [if_pos rfl, if_pos rfl,
                    ih g2 (isWordChar c) rest (by omega) (by omega)]
              | false =>
                  rw [if_neg (by simp), if_neg (by simp)]
                  cases hms : matchSev (c :: rest) with
                  | none =>
                      dsimp only
                      rw [ih g2 (isWordChar c) rest (by omega) (by omega)]
                  | some t =>
                      obtain ⟨-, -, -, hpos, hle⟩ := matchSev_some_facts hms
                      dsimp only
                      rw [ih g2 true ((c :: rest).drop t.length)
                        (by simp only [List.length_drop, List.length_cons]; omega)
                        (by simp only [List.length_drop, List.length_cons]; omega)]

/-- The word-run specification ignores extra fuel. -/
theorem wordWiseAux_congr : ∀ (f1 f2 : Nat) (cs : List Char),
    cs.length ≤ f1 → cs.length ≤ f2 →
    wordWiseAux f1 cs = wordWiseAux f2 cs := by
  intro f1
  induction f1 with
  | zero =>
      intro f2 cs h1 h2
      have : cs = [] := List.length_eq_zero.mp (by omega)
      subst this
      cases f2 <;> rfl
  | succ g1 ih =>
      intro f2 cs h1 h2
      cases cs with
      | nil => cases f2 <;> rfl
      | cons c rest =>
          cases f2 with
          | zero => simp at h2
          | succ g2 =>
              simp only [List.length_cons] at h1 h2
              simp only [wordWiseAux]
              by_cases hw : isWordChar c = true
              · rw [if_pos hw, if_pos hw]
                have hdw : ((c :: rest).dropWhile isWordChar).length ≤ rest.length := by
                  rw [List.dropWhile_cons, if_pos hw]
                  exact (List.dropWhile_sublist isWordChar).length_le
                rw [ih g2 ((c :: rest).dropWhile isWordChar) (by omega) (by omega)]
              · rw [if_neg hw, if_neg hw,
                  ih g2 rest (by omega) (by omega)]

/-- The three severity tokens, by cases. -/
theorem sevTokens_cases {t : String} (ht : t ∈ sevTokens) :
    t = "Low" ∨ t = "Medium" ∨ t = "High" := by
  have hmem2 : t ∈ ["Low", "Medium", "High"] := ht
  rcases List.mem_cons.mp hmem2 with h | h
  · exact Or.inl h
  rcases List.mem_cons.mp h with h | h
  · exact Or.inr (Or.inl h)
  rcases List.mem_cons.mp h with h | h
  · exact Or.inr (Or.inr h)
  · cases h

/-- A non-token is left unchanged by the replacement mapping. -/
theorem sevTag_of_not_token {w : String} (hw : w ∉ sevTokens) :
    sevTag w = w := by
  unfold sevTag
  rw [if_neg (fun h => hw (by rw [h]; decide)),
    if_neg (fun h => hw (by rw [h]; decide)),
    if_neg (fun h => hw (by rw [h]; decide))]

/-- The position after a maximal word run is a word boundary. -/
theorem afterBoundary_dropWhile (l : List Char) :
    afterBoundary (l.dropWhile isWordChar) = true := by
  induction l with
  | nil => rfl
  | cons c rest ih =>
      rw [List.dropWhile_cons]
      by_cases hw : isWordChar c = true
      · rw [if_pos hw]
        exact ih
      · rw [if_neg hw]
        simp only [afterBoundary]
        simp only [Bool.not_eq_true] at hw
        rw [hw]
        rfl

/-- At a boundary, the maximal word run is empty. -/
theorem takeWhile_boundary {z : List Char} (hz : afterBoundary z = true) :
    z.takeWhile isWordChar = [] ∧ z.dropWhile isWordChar = z := by
  cases z with
  | nil => exact ⟨rfl, rfl⟩
  | cons c r =>
      have hw : isWordChar c = false := by
        simpa [afterBoundary] using hz
      rw [List.takeWhile_cons_of_neg (by simp [hw]),
        List.dropWhile_cons_of_neg (by simp [hw])]
      exact ⟨rfl, rfl⟩

/-- `takeWhile`/`dropWhile` pass over an all-word prefix. -/
theorem takeWhile_word_append (xs z : List Char)
    (hall : ∀ c ∈ xs, isWordChar c = true) :
    (xs ++ z).takeWhile isWordChar = xs ++ z.takeWhile isWordChar ∧
    (xs ++ z).dropWhile isWordChar = z.dropWhile isWordChar := by
  induction xs with
  | nil => exact ⟨rfl, rfl⟩
  | cons x xs' ih =>
      have hx := hall x (by simp)
      obtain ⟨h1, h2⟩ := ih (fun c hc => hall c (by simp [hc]))
      refine ⟨?_, ?_⟩
      · rw [List.cons_append, List.takeWhile_cons_of_pos hx, h1, List.cons_append]
      · rw [List.cons_append, List.dropWhile_cons_of_pos hx, h2]

/-- Every character of a severity token is a word character. -/
theorem sevToken_chars_word {t : String} (ht : t ∈ sevTokens) :
    ∀ c ∈ t.data, isWordChar c = true := by
  rcases sevTokens_cases ht with rfl | rfl | rfl <;> decide

/-- A severity token followed by a boundary matches, and the alternation
returns exactly that token. -/
theorem matchSev_of_token {t : String} (ht : t ∈ sevTokens) (z : List Char)
    (hb : afterBoundary z = true) : matchSev (t.data ++ z) = some t := by
  have hpre : t.data.isPrefixOf (t.data ++ z) = true :=
    List.isPrefixOf_iff_prefix.mpr ⟨z, rfl⟩
  have hbd : afterBoundary ((t.data ++ z).drop t.length) = true := by
    rw [show t.length = t.data.length from rfl, List.drop_left]
    exact hb
  rcases sevTokens_cases ht with rfl | rfl | rfl
  · unfold matchSev sevTokens
    rw [List.find?_cons_of_pos _ (by simp [hpre]; simpa using hbd)]
  · unfold matchSev sevTokens
    rw [List.find?_cons_of_neg _ (by
      rw [show "Medium".data ++ z = 'M' :: ("edium".data ++ z) from rfl,
        show "Low".data = 'L' :: "ow".data from rfl]
      simp [List.isPrefixOf_cons₂]),
      List.find?_cons_of_pos _ (by simp [hpre]; simpa using hbd)]
  · unfold matchSev sevTokens
    rw [List.find?_cons_of_neg _ (by
      rw [show "High".data ++ z = 'H' :: ("igh".data ++ z) from rfl,
        show "Low".data = 'L' :: "ow".data from rfl]
      simp [List.isPrefixOf_cons₂]),
      List.find?_cons_of_neg _ (by
      rw [show "High".data ++ z = 'H' :: ("igh".data ++ z) from rfl,
        show "Medium".data = 'M' :: "edium".data from rfl]
      simp [List.isPrefixOf_cons₂]),
      List.find?_cons_of_pos _ (by simp [hpre]; simpa using hbd)]

/-- If `matchSev` succeeds, the matched token is exactly the maximal word
run at that position. -/
theorem matchSev_token_is_run {cs : List Char} {t : String}
    (h : matchSev cs = some t) : cs.takeWhile isWordChar = t.data := by
  obtain ⟨hmem, hpre, hbd, -, -⟩ := matchSev_some_facts h
  obtain ⟨z, hz⟩ := List.isPrefixOf_iff_prefix.mp hpre
  have hdrop : cs.drop t.length = z := by
    rw [← hz, show t.length = t.data.length from rfl, List.drop_left]
  rw [← hz]
  obtain ⟨h1, -⟩ :=
    takeWhile_word_append t.data z (sevToken_chars_word hmem)
  rw [h1, (takeWhile_boundary (hdrop ▸ hbd)).1, List.append_nil]

/-- Unfolding the scan after a word character. -/
theorem riskScanAux_true_cons (g : Nat) (c : Char) (rest : List Char) :
    riskScanAux (g + 1) true (c :: rest) =
      c :: riskScanAux g (isWordChar c) rest := rfl

/-- Unfolding the scan at a failed match. -/
theorem riskScanAux_false_cons_none (g : Nat) (c : Char) (rest : List Char)
    (h : matchSev (c :: rest) = none) :
    riskScanAux (g + 1) false (c :: rest) =
      c :: riskScanAux g (isWordChar c) rest := by
  simp only [riskScanAux, if_neg (by simp : ¬(false = true)), h]

/-- Unfolding the scan at a successful match. -/
theorem riskScanAux_false_cons_some (g : Nat) (c : Char) (rest : List Char)
    (t : String) (h : matchSev (c :: rest) = some t) :
    riskScanAux (g + 1) false (c :: rest) =
      (sevTag t).data ++ riskScanAux g true ((c :: rest).drop t.length) := by
  simp only [riskScanAux, if_neg (by simp : ¬(false = true)), h]

/-- Scanning with `prevWord = true` copies a word run verbatim. -/
theorem riskScan_word_run (run z : List Char)
    (hall : ∀ c ∈ run, isWordChar c = true) :
    ∀ fuel, run.length + z.length ≤ fuel →
    riskScanAux fuel true (run ++ z) = run ++ riskScanAux (fuel - run.length) true z := by
  induction run with
  | nil =>
      intro fuel h
      simp
  | cons r run' ih =>
      intro fuel h
      cases fuel with
      | zero => simp at h
      | succ g =>
          rw [List.cons_append, riskScanAux_true_cons, hall r (by simp),
            ih (fun c hc => hall c (by simp [hc])) g (by
              simp only [List.length_cons] at h
              omega),
            List.length_cons, Nat.succ_sub_succ, List.cons_append]

/-- At a boundary, the left-context flag makes no difference. -/
theorem riskScan_true_eq_false (fuel : Nat) (cs : List Char)
    (hb : afterBoundary cs = true) :
    riskScanAux fuel true cs = riskScanAux fuel false cs := by
  cases fuel with
  | zero => rfl
  | succ g =>
      cases cs with
      | nil => rfl
      | cons c rest =>
          have hw : isWordChar c = false := by
            simpa [afterBoundary] using hb
          rw [riskScanAux_true_cons,
            riskScanAux_false_cons_none g c rest (matchSev_none_of_not_word hw rest)]

/-- Unfolding the word-run specification at a word character. -/
theorem wordWiseAux_cons_word (g : Nat) (c : Char) (rest : List Char)
    (hw : isWordChar c = true) :
    wordWiseAux (g + 1) (c :: rest) =
      (sevTag (String.mk ((c :: rest).takeWhile isWordChar))).data ++
        wordWiseAux g ((c :: rest).dropWhile isWordChar) := by
  simp only [wordWiseAux, if_pos hw]

/-- Unfolding the word-run specification at a non-word character. -/
theorem wordWiseAux_cons_nonword (g : Nat) (c : Char) (rest : List Char)
    (hw : isWordChar c = false) :
    wordWiseAux (g + 1) (c :: rest) = c :: wordWiseAux g rest := by
  simp only [wordWiseAux]
  rw [hw, if_neg (by decide : ¬(false = true))]

/-- The regex scan and the word-run specification agree. -/
theorem riskScan_eq_wordWise :
    ∀ (n : Nat) (cs : List Char) (f1 f2 : Nat),
    cs.length ≤ n → cs.length ≤ f1 → cs.length ≤ f2 →
    riskScanAux f1 false cs = wordWiseAux f2 cs := by
  intro n
  induction n with
  | zero =>
      intro cs f1 f2 h1 _ _
      have hnil : cs = [] := List.length_eq_zero.mp (by omega)
      subst hnil
      cases f1 <;> cases f2 <;> rfl
  | succ n ih =>
      intro cs f1 f2 hn hf1 hf2
      cases cs with
      | nil => cases f1 <;> cases f2 <;> rfl
      | cons c rest =>
          cases f1 with
          | zero => simp at hf1
          | succ g1 =>
            cases f2 with
            | zero => simp at hf2
            | succ g2 =>
              simp only [List.length_cons] at hn hf1 hf2
              have hsplit : rest.takeWhile isWordChar ++ rest.dropWhile isWordChar = rest :=
                List.takeWhile_append_dropWhile _ _
              have hlensplit :
                  (rest.takeWhile isWordChar).length +
                    (rest.dropWhile isWordChar).length = rest.length := by
                have := congrArg List.length hsplit
                rw [List.length_append] at this
                exact this
              by_cases hw : isWordChar c = true
              · have hallw : ∀ x ∈ rest.takeWhile isWordChar, isWordChar x = true :=
                  fun x hx => List.mem_takeWhile_imp hx
                have hbd : afterBoundary (rest.dropWhile isWordChar) = true :=
                  afterBoundary_dropWhile rest
                by_cases htok :
                    String.mk (c :: rest.takeWhile isWordChar) ∈ sevTokens
                · have hcs : c :: rest =
                      (String.mk (c :: rest.takeWhile isWordChar)).data ++
                        rest.dropWhile isWordChar := by
                    show c :: rest = (c :: rest.takeWhile isWordChar) ++ _
                    rw [List.cons_append, hsplit]
                  have hms : matchSev (c :: rest) =
                      some (String.mk (c :: rest.takeWhile isWordChar)) := by
                    rw [hcs]
                    exact matchSev_of_token htok _ hbd
                  rw [riskScanAux_false_cons_some g1 c rest _ hms]
                  have hdrop : (c :: rest).drop
                      (String.mk (c :: rest.takeWhile isWordChar)).length =
                      rest.dropWhile isWordChar := by
                    conv_lhs => rw [hcs]
                    exact List.drop_left _ _
                  rw [hdrop, wordWiseAux_cons_word g2 c rest hw,
                    List.takeWhile_cons_of_pos hw, List.dropWhile_cons_of_pos hw]
                  refine congrArg _ ?_
                  rw [riskScan_true_eq_false g1 _ hbd]
                  exact ih (rest.dropWhile isWordChar) g1 g2
                    (by omega) (by omega) (by omega)
                · have hms : matchSev (c :: rest) = none := by
                    cases hmm : matchSev (c :: rest) with
                    | none => rfl
                    | some t =>
                        exfalso
                        apply htok
                        have hrun := matchSev_token_is_run hmm
                        rw [List.takeWhile_cons_of_pos hw] at hrun
                        have : String.mk (c :: rest.takeWhile isWordChar) = t := by
                          rw [hrun]
                        rw [this]
                        exact (matchSev_some_facts hmm).1
                  rw [riskScanAux_false_cons_none g1 c rest hms, hw]
                  conv_lhs => rw [← hsplit]
                  rw [riskScan_word_run _ _ hallw g1 (by omega),
                    riskScan_true_eq_false _ _ hbd,
                    ih (rest.dropWhile isWordChar)
                      (g1 - (rest.takeWhile isWordChar).length) g2
                      (by omega) (by omega) (by omega),
                    wordWiseAux_cons_word g2 c rest hw,
                    List.takeWhile_cons_of_pos hw, List.dropWhile_cons_of_pos hw,
                    sevTag_of_not_token htok]
                  exact (List.cons_append _ _ _).symm
              · have hwf : isWordChar c = false := by
                  revert hw
                  cases isWordChar c <;> simp
                rw [riskScanAux_false_cons_none g1 c rest
                    (matchSev_none_of_not_word hwf rest),
                  wordWiseAux_cons_nonword g2 c rest hwf, hwf]
                exact congrArg (c :: ·) (ih rest g1 g2 (by omega) (by omega) (by omega))

/-- C6: the risk post-processing replaces exactly the whole-word
occurrences of the bare severity tokens, prefixing a severity marker and
leaving everything else (including partial-word occurrences such as
`"Lowest"`) unchanged: it coincides with the word-run specification
`wordWiseSub` on every string, the replacement of each token is the token
prefixed with its marker, and on the sample input only the whole word
`"Low"` is tagged. -/
theorem risk_substitution_whole_word :
    (∀ s : String, riskSub s = wordWiseSub s) ∧
    (sevTag "Low" = "🟢 " ++ "Low" ∧ sevTag "Medium" = "🟡 " ++ "Medium" ∧
      sevTag "High" = "🔴 " ++ "High") ∧
    riskSub "Risk: Low overall, Lowest priority" =
      "Risk: 🟢 Low overall, Lowest priority" := by
  refine ⟨fun s => ?_, by decide, by decide⟩
  unfold riskSub wordWiseSub
  exact congrArg String.mk
    (riskScan_eq_wordWise s.data.length s.data s.data.length s.data.length
      le_rfl le_rfl le_rfl)

/-! ## Lemmas for the line-counting claim -/

/-- Every line produced by `splitLinesAux` is free of line terminators. -/
theorem splitLinesAux_noTerm : ∀ (fuel : Nat) (cs acc : List Char),
    (∀ c ∈ acc, isLineBreak c = false) →
    ∀ l ∈ splitLinesAux fuel cs acc, noTermStr l := by
  intro fuel
  induction fuel with
  | zero =>
      intro cs acc hacc l hl
      simp only [splitLinesAux] at hl
      split at hl
      · cases hl
      · rcases List.mem_singleton.mp hl with rfl
        intro c hc
        exact hacc c (List.mem_reverse.mp hc)
  | succ g ih =>
      intro cs acc hacc l hl
      cases cs with
      | nil =>
          simp only [splitLinesAux] at hl
          split at hl
          · cases hl
          · rcases List.mem_singleton.mp hl with rfl
            intro c hc
            exact hacc c (List.mem_reverse.mp hc)
      | cons c rest =>
          simp only [splitLinesAux] at hl
          by_cases hcr : c = '\r'
          · rw [if_pos hcr] at hl
            rcases List.mem_cons.mp hl with rfl | hl2
            · intro x hx
              exact hacc x (List.mem_reverse.mp hx)
            · exact ih _ [] (by simp) l hl2
          · rw [if_neg hcr] at hl
            by_cases hbr : isLineBreak c = true
            · rw [if_pos hbr] at hl
              rcases List.mem_cons.mp hl with rfl | hl2
              · intro x hx
                exact hacc x (List.mem_reverse.mp hx)
              · exact ih rest [] (by simp) l hl2
            · rw [if_neg hbr] at hl
              refine ih rest (c :: acc) ?_ l hl
              intro x hx
              rcases List.mem_cons.mp hx with rfl | hx2
              · simpa using hbr
              · exact hacc x hx2

/-- Every line of `pySplitlines` is free of line terminators. -/
theorem pySplitlines_noTerm (s : String) :
    ∀ l ∈ pySplitlines s, noTermStr l :=
  splitLinesAux_noTerm s.data.length s.data [] (by simp)

/-- `splitLinesAux` at the end of input. -/
theorem splitLinesAux_nil (fuel : Nat) (acc : List Char) :
    splitLinesAux fuel [] acc =
      if acc.isEmpty then [] else [String.mk acc.reverse] := by
  cases fuel <;> rfl

/-- `splitLinesAux` at a newline. -/
theorem splitLinesAux_newline (fuel : Nat) (tail acc : List Char) :
    splitLinesAux (fuel + 1) ('\n' :: tail) acc =
      String.mk acc.reverse :: splitLinesAux fuel tail [] := by
  simp only [splitLinesAux, if_neg (by decide : ¬('\n' = '\r')),
    if_pos (by decide : isLineBreak '\n' = true)]

/-- `splitLinesAux` consumes a terminator-free chunk into the
accumulator. -/
theorem splitLinesAux_chunk : ∀ (w : List Char),
    (∀ c ∈ w, isLineBreak c = false) →
    ∀ (tail acc : List Char) (fuel : Nat), w.length + tail.length ≤ fuel →
    splitLinesAux fuel (w ++ tail) acc =
      splitLinesAux (fuel - w.length) tail (w.reverse ++ acc) := by
  intro w
  induction w with
  | nil =>
      intro _ tail acc fuel _
      simp
  | cons x w' ih =>
      intro hall tail acc fuel hfuel
      cases fuel with
      | zero => simp at hfuel
      | succ g =>
          have hx : isLineBreak x = false := hall x (by simp)
          have hxr : x ≠ '\r' := by
            intro h
            rw [h] at hx
            exact absurd hx (by decide)
          rw [List.cons_append]
          simp only [splitLinesAux, if_neg hxr, hx,
            if_neg (by decide : ¬(false = true))]
          rw [ih (fun c hc => hall c (by simp [hc])) tail (x :: acc) g (by
            simp only [List.length_cons] at hfuel
            omega)]
          have : w'.reverse ++ (x :: acc) = (x :: w').reverse ++ acc := by
            simp
          rw [this, List.length_cons, Nat.succ_sub_succ]

/-- Joining terminator-free non-empty lines with `'\n'` and splitting
again is the identity. -/
theorem splitLinesAux_joinNl : ∀ (lines : List String),
    (∀ l ∈ lines, l.data ≠ [] ∧ noTermStr l) →
    ∀ fuel, (joinNl lines).data.length ≤ fuel →
    splitLinesAux fuel (joinNl lines).data [] = lines := by
  intro lines
  induction lines with
  | nil =>
      intro _ fuel _
      rw [show (joinNl []).data = [] from rfl, splitLinesAux_nil]
      rfl
  | cons l rest ih =>
      intro hall fuel hfuel
      obtain ⟨hne, hnt⟩ := hall l (by simp)
      cases rest with
      | nil =>
          rw [show joinNl [l] = l from rfl] at hfuel ⊢
          have := splitLinesAux_chunk l.data
            (fun c hc => hnt c hc) [] [] fuel (by simpa using hfuel)
          rw [List.append_nil] at this
          rw [this, splitLinesAux_nil,
            if_neg (by simpa [List.isEmpty_iff] using hne)]
          simp
      | cons r rest' =>
          have hdata : (joinNl (l :: r :: rest')).data =
              l.data ++ ('\n' :: (joinNl (r :: rest')).data) := by
            show ((l ++ "\n") ++ joinNl (r :: rest')).data = _
            rw [data_append, data_append]
            simp
          rw [hdata] at hfuel ⊢
          rw [List.length_append, List.length_cons] at hfuel
          rw [splitLinesAux_chunk l.data (fun c hc => hnt c hc) _ []
            fuel (by simp only [List.length_cons]; omega)]
          have hpos : 1 ≤ fuel - l.data.length := by omega
          obtain ⟨g, hg⟩ : ∃ g, fuel - l.data.length = g + 1 :=
            ⟨fuel - l.data.length - 1, by omega⟩
          rw [hg, splitLinesAux_newline, List.append_nil, List.reverse_reverse]
          rw [ih (fun x hx => hall x (by simp [hx])) g (by omega)]

/-- `pySplitlines` inverts `joinNl` on terminator-free non-empty lines. -/
theorem pySplitlines_joinNl (lines : List String)
    (hall : ∀ l ∈ lines, l.data ≠ [] ∧ noTermStr l) :
    pySplitlines (joinNl lines) = lines :=
  splitLinesAux_joinNl lines hall _ le_rfl

/-- Decimal digit characters are not line terminators. -/
theorem digitChar_noTerm (m : Nat) : isLineBreak (Nat.digitChar m) = false := by
  rcases Nat.lt_or_ge m 16 with h | h
  · interval_cases m <;> rfl
  · have hne : ∀ k, k < 16 → ¬ m = k := by
      intro k hk
      omega
    unfold Nat.digitChar
    rw [if_neg (hne 0 (by decide)), if_neg (hne 1 (by decide)),
      if_neg (hne 2 (by decide)), if_neg (hne 3 (by decide)),
      if_neg (hne 4 (by decide)), if_neg (hne 5 (by decide)),
      if_neg (hne 6 (by decide)), if_neg (hne 7 (by decide)),
      if_neg (hne 8 (by decide)), if_neg (hne 9 (by decide)),
      if_neg (hne 10 (by decide)), if_neg (hne 11 (by decide)),
      if_neg (hne 12 (by decide)), if_neg (hne 13 (by decide)),
      if_neg (hne 14 (by decide)), if_neg (hne 15 (by decide))]
    rfl

/-- `Nat.toDigitsCore` only emits digit characters. -/
theorem toDigitsCore_noTerm : ∀ (fuel n : Nat) (ds : List Char),
    (∀ c ∈ ds, isLineBreak c = false) →
    ∀ c ∈ Nat.toDigitsCore 10 fuel n ds, isLineBreak c = false := by
  intro fuel
  induction fuel with
  | zero =>
      intro n ds hds c hc
      exact hds c hc
  | succ g ih =>
      intro n ds hds c hc
      simp only [Nat.toDigitsCore] at hc
      split at hc
      · rcases List.mem_cons.mp hc with rfl | h2
        · exact digitChar_noTerm _
        · exact hds c h2
      · refine ih (n / 10) (Nat.digitChar (n % 10) :: ds) ?_ c hc
        intro x hx
        rcases List.mem_cons.mp hx with rfl | h2
        · exact digitChar_noTerm _
        · exact hds x h2

/-- Decimal `Nat` rendering contains no line terminators. -/
theorem natRepr_noTerm (n : Nat) : noTermStr (toString n) := by
  intro c hc
  exact toDigitsCore_noTerm (n + 1) n [] (by simp) c hc

/-- Concatenation preserves terminator-freeness. -/
theorem noTermStr_append {s t : String} (hs : noTermStr s) (ht : noTermStr t) :
    noTermStr (s ++ t) := by
  intro c hc
  rw [data_append] at hc
  rcases List.mem_append.mp hc with h | h
  · exact hs c h
  · exact ht c h

/-- Hunk ranges contain no line terminators. -/
theorem formatRangeUnified_noTerm (a b : Nat) :
    noTermStr (formatRangeUnified a b) := by
  unfold formatRangeUnified
  split_ifs
  · exact natRepr_noTerm _
  · exact noTermStr_append (noTermStr_append (natRepr_noTerm _) (by decide))
      (natRepr_noTerm _)
  · exact noTermStr_append (noTermStr_append (natRepr_noTerm _) (by decide))
      (natRepr_noTerm _)

/-- Hunk headers contain no line terminators. -/
theorem hunkHeader_noTerm (g : List Opcode) : noTermStr (hunkHeader g) := by
  unfold hunkHeader
  exact noTermStr_append
    (noTermStr_append
      (noTermStr_append
        (noTermStr_append (by decide) (formatRangeUnified_noTerm _ _))
        (by decide))
      (formatRangeUnified_noTerm _ _))
    (by decide)

/-- A line made of a single-character terminator-free prefix and a
terminator-free payload is non-empty and terminator-free. -/
theorem single_prefix_wf {p : String} {c : Char} (hp : p.data = [c])
    (hc : isLineBreak c = false) (u : String) (hu : noTermStr u) :
    (p ++ u).data ≠ [] ∧ noTermStr (p ++ u) := by
  refine ⟨?_, noTermStr_append ?_ hu⟩
  · rw [data_append, hp]
    simp
  · intro x hx
    rw [hp] at hx
    rcases List.mem_singleton.mp hx with rfl
    exact hc

/-- The body lines of a group are never empty and never contain a line
terminator. -/
theorem groupLines_wellformed (a b : List String)
    (ha : ∀ l ∈ a, noTermStr l) (hb : ∀ l ∈ b, noTermStr l) :
    ∀ gg, ∀ x ∈ groupLines a b gg, x.data ≠ [] ∧ noTermStr x := by
  intro gg
  induction gg with
  | nil =>
      intro x hx
      cases hx
  | cons op ops ihops =>
      intro x hx
      obtain ⟨tag, i1, i2, j1, j2⟩ := op
      have hsa : ∀ u ∈ slice a i1 i2, noTermStr u := fun u hu =>
        ha u (List.mem_of_mem_drop (List.mem_of_mem_take hu))
      have hsb : ∀ u ∈ slice b j1 j2, noTermStr u := fun u hu =>
        hb u (List.mem_of_mem_drop (List.mem_of_mem_take hu))
      simp only [groupLines] at hx
      rcases List.mem_append.mp hx with hx1 | hx2
      · cases tag with
        | equal =>
            obtain ⟨u, hu, rfl⟩ := List.mem_map.mp hx1
            exact single_prefix_wf rfl (by decide) u (hsa u hu)
        | replace =>
            rcases List.mem_append.mp hx1 with hx3 | hx3
            · obtain ⟨u, hu, rfl⟩ := List.mem_map.mp hx3
              exact single_prefix_wf rfl (by decide) u (hsa u hu)
            · obtain ⟨u, hu, rfl⟩ := List.mem_map.mp hx3
              exact single_prefix_wf rfl (by decide) u (hsb u hu)
        | delete =>
            obtain ⟨u, hu, rfl⟩ := List.mem_map.mp hx1
            exact single_prefix_wf rfl (by decide) u (hsa u hu)
        | insert =>
            obtain ⟨u, hu, rfl⟩ := List.mem_map.mp hx1
            exact single_prefix_wf rfl (by decide) u (hsb u hu)
      · exact ihops x hx2

/-- All lines emitted by `unifiedDiffLines` are non-empty and
terminator-free, provided the input lines and the two titles are. -/
theorem diffLines_wellformed (a b : List String) (ft tt : String)
    (ha : ∀ l ∈ a, noTermStr l) (hb : ∀ l ∈ b, noTermStr l)
    (hft : noTermStr ft) (htt : noTermStr tt) :
    ∀ l ∈ unifiedDiffLines a b ft tt, l.data ≠ [] ∧ noTermStr l := by
  intro l hl
  unfold unifiedDiffLines at hl
  cases hgo : groupedOpcodes a b with
  | nil =>
      rw [hgo] at hl
      cases hl
  | cons g gs =>
      rw [hgo] at hl
      rcases List.mem_cons.mp hl with rfl | hl2
      · refine ⟨?_, noTermStr_append (by decide) hft⟩
        rw [data_append]
        simp [show ("--- " : String).data = ['-', '-', '-', ' '] from rfl]
      · rcases List.mem_cons.mp hl2 with rfl | hl3
        · refine ⟨?_, noTermStr_append (by decide) htt⟩
          rw [data_append]
          simp [show ("+++ " : String).data = ['+', '+', '+', ' '] from rfl]
        · obtain ⟨gg, -, hmem⟩ := List.mem_flatMap.mp hl3
          rcases List.mem_cons.mp hmem with rfl | hbody
          · refine ⟨?_, hunkHeader_noTerm gg⟩
            unfold hunkHeader
            rw [data_append, data_append, data_append, data_append]
            simp [show ("@@ -" : String).data = ['@', '@', ' ', '-'] from rfl]
          · exact groupLines_wellformed a b ha hb gg l hbody

/-- Counting over a map with a pointwise-translated predicate. -/
theorem countP_map_eq {α β : Type} (f : α → β) (p : β → Bool) (q : α → Bool)
    (h : ∀ u, p (f u) = q u) (xs : List α) :
    (xs.map f).countP p = xs.countP q := by
  rw [List.countP_map]
  exact List.countP_congr (fun x _ => by simp [Function.comp, h x])

/-- A `'+'`-prefixed line passes the added-lines filter exactly when its
payload does not itself start with `"++"`. -/
theorem addPred_plus_line (x : String) :
    (pyStartsWith ("+" ++ x) "+" && !pyStartsWith ("+" ++ x) "+++") =
      !pyStartsWith x "++" := by
  unfold pyStartsWith
  rw [show ("+" ++ x).data = '+' :: x.data from by rw [data_append]; rfl,
    show ("+" : String).data = ['+'] from rfl,
    show ("+++" : String).data = ['+', '+', '+'] from rfl,
    show ("++" : String).data = ['+', '+'] from rfl]
  simp [List.isPrefixOf_cons₂]

/-- A `'-'`-prefixed line passes the removed-lines filter exactly when
its payload does not itself start with `"--"`. -/
theorem remPred_minus_line (x : String) :
    (pyStartsWith ("-" ++ x) "-" && !pyStartsWith ("-" ++ x) "---") =
      !pyStartsWith x "--" := by
  unfold pyStartsWith
  rw [show ("-" ++ x).data = '-' :: x.data from by rw [data_append]; rfl,
    show ("-" : String).data = ['-'] from rfl,
    show ("---" : String).data = ['-', '-', '-'] from rfl,
    show ("--" : String).data = ['-', '-'] from rfl]
  simp [List.isPrefixOf_cons₂]

/-- A prefix test fails as soon as the heads differ. -/
theorem isPrefixOf_cons_ne {d c : Char} (hd : (d == c) = false)
    (ds cs : List Char) : List.isPrefixOf (d :: ds) (c :: cs) = false := by
  rw [List.isPrefixOf_cons₂, hd]
  rfl

/-- Heads of the prefixed line forms. -/
theorem prefixed_data (p x : String) (c : Char) (hp : p.data = [c]) :
    (p ++ x).data = c :: x.data := by
  rw [data_append, hp]
  rfl

/-- The added/removed filters agree between the rendered lines of a
group and its edit operations. -/
theorem groupLines_counts (a b : List String) (gg : List Opcode) :
    (groupLines a b gg).countP
        (fun l => pyStartsWith l "+" && !pyStartsWith l "+++") =
      (groupOps a b gg).countP
        (fun op => op.isAdd && !pyStartsWith op.text "++") ∧
    (groupLines a b gg).countP
        (fun l => pyStartsWith l "-" && !pyStartsWith l "---") =
      (groupOps a b gg).countP
        (fun op => op.isRemove && !pyStartsWith op.text "--") := by
  induction gg with
  | nil => exact ⟨rfl, rfl⟩
  | cons op ops ihops =>
      obtain ⟨tag, i1, i2, j1, j2⟩ := op
      have hfail : ∀ (p u q : String) (c d : Char), p.data = [c] →
          q.data = d :: q.data.tail → (d == c) = false →
          pyStartsWith (p ++ u) q = false := by
        intro p u q c d hp hq hd
        unfold pyStartsWith
        rw [prefixed_data p u c hp, hq]
        exact isPrefixOf_cons_ne hd _ _
      have hctxAdd : ∀ u : String,
          (pyStartsWith (" " ++ u) "+" && !pyStartsWith (" " ++ u) "+++") = false := by
        intro u
        rw [hfail " " u "+" ' ' '+' rfl rfl (by decide)]
        rfl
      have hctxRem : ∀ u : String,
          (pyStartsWith (" " ++ u) "-" && !pyStartsWith (" " ++ u) "---") = false := by
        intro u
        rw [hfail " " u "-" ' ' '-' rfl rfl (by decide)]
        rfl
      have hplusRem : ∀ u : String,
          (pyStartsWith ("+" ++ u) "-" && !pyStartsWith ("+" ++ u) "---") = false := by
        intro u
        rw [hfail "+" u "-" '+' '-' rfl rfl (by decide)]
        rfl
      have hminusAdd : ∀ u : String,
          (pyStartsWith ("-" ++ u) "+" && !pyStartsWith ("-" ++ u) "+++") = false := by
        intro u
        rw [hfail "-" u "+" '-' '+' rfl rfl (by decide)]
        rfl
      have hopsAdd : ∀ (u : String),
          ((EditOp.context u).isAdd && !pyStartsWith (EditOp.context u).text "++") = false := by
        intro u
        rfl
      simp only [groupLines, groupOps, List.countP_append]
      cases tag with
      | equal =>
          constructor
          · rw [countP_map_eq _ _ (fun _ => false) (fun u => hctxAdd u),
              countP_map_eq EditOp.context _ (fun _ => false) (fun u => rfl)]
            simp [ihops.1]
          · rw [countP_map_eq _ _ (fun _ => false) (fun u => hctxRem u),
              countP_map_eq EditOp.context _ (fun _ => false) (fun u => rfl)]
            simp [ihops.2]
      | replace =>
          constructor
          · rw [List.countP_append, List.countP_append,
              countP_map_eq _ _ (fun _ => false) (fun u => hminusAdd u),
              countP_map_eq _ _ (fun u => !pyStartsWith u "++")
                (fun u => addPred_plus_line u),
              countP_map_eq EditOp.remove _ (fun _ => false) (fun u => rfl),
              countP_map_eq EditOp.add _ (fun u => !pyStartsWith u "++")
                (fun u => rfl)]
            simp [ihops.1]
          · rw [List.countP_append, List.countP_append,
              countP_map_eq _ _ (fun u => !pyStartsWith u "--")
                (fun u => remPred_minus_line u),
              countP_map_eq _ _ (fun _ => false) (fun u => hplusRem u),
              countP_map_eq EditOp.remove _ (fun u => !pyStartsWith u "--")
                (fun u => rfl),
              countP_map_eq EditOp.add _ (fun _ => false) (fun u => rfl)]
            simp [ihops.2]
      | delete =>
          constructor
          · rw [countP_map_eq _ _ (fun _ => false) (fun u => hminusAdd u),
              countP_map_eq EditOp.remove _ (fun _ => false) (fun u => rfl)]
            simp [ihops.1]
          · rw [countP_map_eq _ _ (fun u => !pyStartsWith u "--")
                (fun u => remPred_minus_line u),
              countP_map_eq EditOp.remove _ (fun u => !pyStartsWith u "--")
                (fun u => rfl)]
            simp [ihops.2]
      | insert =>
          constructor
          · rw [countP_map_eq _ _ (fun u => !pyStartsWith u "++")
                (fun u => addPred_plus_line u),
              countP_map_eq EditOp.add _ (fun u => !pyStartsWith u "++")
                (fun u => rfl)]
            simp [ihops.1]
          · rw [countP_map_eq _ _ (fun _ => false) (fun u => hplusRem u),
              countP_map_eq EditOp.add _ (fun _ => false) (fun u => rfl)]
            simp [ihops.2]

/-- The added/removed filters agree between the full rendered hunks and
the edit script. -/
theorem flatMap_counts (a b : List String) (groups : List (List Opcode)) :
    (groups.flatMap (fun gg => hunkHeader gg :: groupLines a b gg)).countP
        (fun l => pyStartsWith l "+" && !pyStartsWith l "+++") =
      (groups.flatMap (groupOps a b)).countP
        (fun op => op.isAdd && !pyStartsWith op.text "++") ∧
    (groups.flatMap (fun gg => hunkHeader gg :: groupLines a b gg)).countP
        (fun l => pyStartsWith l "-" && !pyStartsWith l "---") =
      (groups.flatMap (groupOps a b)).countP
        (fun op => op.isRemove && !pyStartsWith op.text "--") := by
  induction groups with
  | nil => exact ⟨rfl, rfl⟩
  | cons g gs ih =>
      simp only [List.flatMap_cons, List.countP_append]
      have hhadd : (pyStartsWith (hunkHeader g) "+" &&
          !pyStartsWith (hunkHeader g) "+++") = false := by
        rw [show pyStartsWith (hunkHeader g) "+" = false from rfl]
        rfl
      have hhrem : (pyStartsWith (hunkHeader g) "-" &&
          !pyStartsWith (hunkHeader g) "---") = false := by
        rw [show pyStartsWith (hunkHeader g) "-" = false from rfl]
        rfl
      constructor
      · rw [List.countP_cons, hhadd, (groupLines_counts a b g).1, ih.1]
        simp
      · rw [List.countP_cons, hhrem, (groupLines_counts a b g).2, ih.2]
        simp

/-- The added/removed line counts of the whole unified diff equal the
filtered edit-script operation counts. -/
theorem unifiedDiff_counts (a b : List String) (ft tt : String) :
    (unifiedDiffLines a b ft tt).countP
        (fun l => pyStartsWith l "+" && !pyStartsWith l "+++") =
      (editScript a b).countP
        (fun op => op.isAdd && !pyStartsWith op.text "++") ∧
    (unifiedDiffLines a b ft tt).countP
        (fun l => pyStartsWith l "-" && !pyStartsWith l "---") =
      (editScript a b).countP
        (fun op => op.isRemove && !pyStartsWith op.text "--") := by
  unfold unifiedDiffLines editScript
  cases hgo : groupedOpcodes a b with
  | nil => exact ⟨rfl, rfl⟩
  | cons g gs =>
      have h1add : (pyStartsWith ("--- " ++ ft) "+" &&
          !pyStartsWith ("--- " ++ ft) "+++") = false := by
        rw [show pyStartsWith ("--- " ++ ft) "+" = false from rfl]
        rfl
      have h1rem : (pyStartsWith ("--- " ++ ft) "-" &&
          !pyStartsWith ("--- " ++ ft) "---") = false := by
        rw [show pyStartsWith ("--- " ++ ft) "-" = true from rfl,
          show pyStartsWith ("--- " ++ ft) "---" = true from rfl]
        rfl
      have h2add : (pyStartsWith ("+++ " ++ tt) "+" &&
          !pyStartsWith ("+++ " ++ tt) "+++") = false := by
        rw [show pyStartsWith ("+++ " ++ tt) "+" = true from rfl,
          show pyStartsWith ("+++ " ++ tt) "+++" = true from rfl]
        rfl
      have h2rem : (pyStartsWith ("+++ " ++ tt) "-" &&
          !pyStartsWith ("+++ " ++ tt) "---") = false := by
        rw [show pyStartsWith ("+++ " ++ tt) "-" = false from rfl]
        rfl
      constructor
      · rw [List.countP_cons, h1add, List.countP_cons, h2add,
          (flatMap_counts a b (g :: gs)).1]
        simp
      · rw [List.countP_cons, h1rem, List.countP_cons, h2rem,
          (flatMap_counts a b (g :: gs)).2]
        simp

/-- C2 (amended): `lines_added` counts exactly the ADD operations of the
edit script whose text does not itself begin with `"++"`, and
`lines_removed` the REMOVE operations whose text does not begin with
`"--"` — the `startswith('+++')` / `startswith('---')` filters exclude
the two file headers but also any content line that happens to begin
with `"++"` / `"--"` — provided the two file titles contain no
line-terminator characters; on old `[a, b, c]` and new `[a, x, c, d]`
this gives `lines_added = 2`, `lines_removed = 1`,
`percent_changed = 100.0`. -/
theorem lines_added_removed_count_ops :
    (∀ old_code new_code ft tt : String, noTermStr ft → noTermStr tt →
      (computeMetrics old_code new_code ft tt).lines_added =
        ((editScript (pySplitlines old_code) (pySplitlines new_code)).filter
          (fun op => op.isAdd && !pyStartsWith op.text "++")).length ∧
      (computeMetrics old_code new_code ft tt).lines_removed =
        ((editScript (pySplitlines old_code) (pySplitlines new_code)).filter
          (fun op => op.isRemove && !pyStartsWith op.text "--")).length) ∧
    (computeMetrics "a\nb\nc" "a\nx\nc\nd" "f" "t").lines_added = 2 ∧
    (computeMetrics "a\nb\nc" "a\nx\nc\nd" "f" "t").lines_removed = 1 ∧
    (computeMetrics "a\nb\nc" "a\nx\nc\nd" "f" "t").percent_changed = 100 := by
  have hmain : ∀ old_code new_code ft tt : String, noTermStr ft → noTermStr tt →
      (computeMetrics old_code new_code ft tt).lines_added =
        ((editScript (pySplitlines old_code) (pySplitlines new_code)).filter
          (fun op => op.isAdd && !pyStartsWith op.text "++")).length ∧
      (computeMetrics old_code new_code ft tt).lines_removed =
        ((editScript (pySplitlines old_code) (pySplitlines new_code)).filter
          (fun op => op.isRemove && !pyStartsWith op.text "--")).length := by
    intro old_code new_code ft tt hft htt
    have hwf := diffLines_wellformed (pySplitlines old_code)
      (pySplitlines new_code) ft tt
      (pySplitlines_noTerm old_code) (pySplitlines_noTerm new_code) hft htt
    have hsplit : pySplitlines
        (fullDiffText (pySplitlines old_code) (pySplitlines new_code) ft tt) =
        unifiedDiffLines (pySplitlines old_code) (pySplitlines new_code) ft tt := by
      unfold fullDiffText
      exact pySplitlines_joinNl _ hwf
    constructor
    · rw [computeMetrics_lines_added]
      unfold linesAdded
      rw [hsplit, ← List.countP_eq_length_filter, ← List.countP_eq_length_filter,
        (unifiedDiff_counts _ _ ft tt).1]
    · rw [computeMetrics_lines_removed]
      unfold linesRemoved
      rw [hsplit, ← List.countP_eq_length_filter, ← List.countP_eq_length_filter,
        (unifiedDiff_counts _ _ ft tt).2]
  have hm : computeMetrics "a\nb\nc" "a\nx\nc\nd" "f" "t" = ⟨2, 1, 100, 0⟩ := by
    unfold computeMetrics
    rw [show linesAdded "a\nb\nc" "a\nx\nc\nd" "f" "t" = 2 from by decide,
      show linesRemoved "a\nb\nc" "a\nx\nc\nd" "f" "t" = 1 from by decide,
      show totalLines "a\nb\nc" = 3 from by decide,
      show blocksChanged "a\nb\nc" "a\nx\nc\nd" = 0 from by decide,
      round2_ratio_eq 2 1 3 100 (by norm_num)]
    norm_num
  exact ⟨hmain, by rw [hm], by rw [hm], by rw [hm]⟩

/-- Witness for `lines_added_removed_count_ops` at a concrete input with
terminator-free titles. -/
theorem lines_added_removed_count_ops_witness :
    (computeMetrics "p\nq" "p\nr" "f" "t").lines_added =
      ((editScript (pySplitlines "p\nq") (pySplitlines "p\nr")).filter
        (fun op => op.isAdd && !pyStartsWith op.text "++")).length ∧
    (computeMetrics "p\nq" "p\nr" "f" "t").lines_removed =
      ((editScript (pySplitlines "p\nq") (pySplitlines "p\nr")).filter
        (fun op => op.isRemove && !pyStartsWith op.text "--")).length :=
  lines_added_removed_count_ops.1 "p\nq" "p\nr" "f" "t"
    (by decide) (by decide)

/-! ## Identical inputs: the diff is empty

On a pair of equal sequences `find_longest_match` over the full range
returns the whole diagonal `(0, 0, len)`: the main loop can only record a
diagonal best (shown through the `chainA` invariant below), and the
backward/forward extension loops then grow any diagonal match to the full
diagonal. -/

/-- Membership in the purged position table. -/
theorem mem_b2jOf {a : List String} {s : String} {j : Nat} :
    j ∈ b2jOf a s ↔ keptElt a s = true ∧ j < a.length ∧ a.getD j "" = s := by
  unfold b2jOf positionsOf
  by_cases hk : keptElt a s = true
  · rw [if_pos hk]
    simp [List.mem_filter, List.mem_range, hk]
  · rw [if_neg hk]
    simp [hk]

/-- A positions-table hit in row `i` forces the diagonal entry of row `i`
to be a hit as well (rows range over the sequence). -/
theorem member_self {a : List String} {i j : Nat}
    (h : j ∈ b2jOf a (a.getD i "")) (hi : i < a.length) :
    i ∈ b2jOf a (a.getD i "") := by
  rcases mem_b2jOf.mp h with ⟨hk, _, _⟩
  exact mem_b2jOf.mpr ⟨hk, hi, rfl⟩

/-- A positions-table hit at column `j` is also a hit in row `j`. -/
theorem member_diag_j {a : List String} {i j : Nat}
    (h : j ∈ b2jOf a (a.getD i "")) :
    j ∈ b2jOf a (a.getD j "") := by
  rcases mem_b2jOf.mp h with ⟨hk, hj, he⟩
  refine mem_b2jOf.mpr ⟨?_, hj, rfl⟩
  rwa [he]

/-- `chainA` vanishes outside the positions table. -/
theorem chainA_eq_zero_of_not_mem {a : List String} {i j : Nat}
    (h : j ∉ b2jOf a (a.getD i "")) : chainA a i j = 0 := by
  match i, j with
  | 0, j =>
      show (if j ∈ b2jOf a (a.getD 0 "") then 1 else 0) = 0
      rw [if_neg h]
  | i + 1, 0 =>
      show (if 0 ∈ b2jOf a (a.getD (i + 1) "") then 1 else 0) = 0
      rw [if_neg h]
  | i + 1, j + 1 =>
      show (if j + 1 ∈ b2jOf a (a.getD (i + 1) "") then chainA a i j + 1 else 0) = 0
      rw [if_neg h]

/-- The diagonal chain value is bounded by the row index plus one. -/
theorem chainA_diag_le (a : List String) : ∀ i, chainA a i i ≤ i + 1 := by
  intro i
  induction i with
  | zero =>
      unfold chainA
      split <;> omega
  | succ i IH =>
      show (if i + 1 ∈ b2jOf a (a.getD (i + 1) "") then chainA a i i + 1 else 0) ≤ i + 1 + 1
      split <;> omega

/-- Any chain ending in column `j` is no longer than the diagonal chain of
row `j`. -/
theorem chainA_le_diag_right (a : List String) : ∀ i j, chainA a i j ≤ chainA a j j := by
  intro i
  induction i with
  | zero =>
      intro j
      show (if j ∈ b2jOf a (a.getD 0 "") then 1 else 0) ≤ chainA a j j
      split
      · next hm =>
          have hm' := member_diag_j hm
          match j with
          | 0 =>
              show 1 ≤ (if 0 ∈ b2jOf a (a.getD 0 "") then 1 else 0)
              rw [if_pos hm']
          | t + 1 =>
              show 1 ≤ (if t + 1 ∈ b2jOf a (a.getD (t + 1) "") then chainA a t t + 1 else 0)
              rw [if_pos hm']
              omega
      · omega
  | succ i IH =>
      intro j
      match j with
      | 0 =>
          show (if 0 ∈ b2jOf a (a.getD (i + 1) "") then 1 else 0) ≤ chainA a 0 0
          split
          · next hm =>
              have hm' := member_diag_j hm
              show 1 ≤ (if 0 ∈ b2jOf a (a.getD 0 "") then 1 else 0)
              rw [if_pos hm']
          · omega
      | t + 1 =>
          show (if t + 1 ∈ b2jOf a (a.getD (i + 1) "") then chainA a i t + 1 else 0) ≤
            chainA a (t + 1) (t + 1)
          split
          · next hm =>
              have hm' := member_diag_j hm
              have he : chainA a (t + 1) (t + 1) = chainA a t t + 1 := by
                show (if t + 1 ∈ b2jOf a (a.getD (t + 1) "") then chainA a t t + 1 else 0) =
                  chainA a t t + 1
                rw [if_pos hm']
              rw [he]
              exact Nat.succ_le_succ (IH t)
          · omega

/-- Any chain of a row `i` inside the sequence is no longer than the
diagonal chain of row `i`. -/
theorem chainA_le_diag_left (a : List String) :
    ∀ i j, i < a.length → chainA a i j ≤ chainA a i i := by
  intro i
  induction i with
  | zero =>
      intro j hi
      show (if j ∈ b2jOf a (a.getD 0 "") then 1 else 0) ≤ chainA a 0 0
      split
      · next hm =>
          have hm' := member_self hm hi
          show 1 ≤ (if 0 ∈ b2jOf a (a.getD 0 "") then 1 else 0)
          rw [if_pos hm']
      · omega
  | succ i IH =>
      intro j hi
      match j with
      | 0 =>
          show (if 0 ∈ b2jOf a (a.getD (i + 1) "") then 1 else 0) ≤ chainA a (i + 1) (i + 1)
          split
          · next hm =>
              have hm' := member_self hm hi
              show 1 ≤ (if i + 1 ∈ b2jOf a (a.getD (i + 1) "") then chainA a i i + 1 else 0)
              rw [if_pos hm']
              omega
          · omega
      | t + 1 =>
          show (if t + 1 ∈ b2jOf a (a.getD (i + 1) "") then chainA a i t + 1 else 0) ≤
            chainA a (i + 1) (i + 1)
          split
          · next hm =>
              have hm' := member_self hm hi
              have he : chainA a (i + 1) (i + 1) = chainA a i i + 1 := by
                show (if i + 1 ∈ b2jOf a (a.getD (i + 1) "") then chainA a i i + 1 else 0) =
                  chainA a i i + 1
                rw [if_pos hm']
              rw [he]
              exact Nat.succ_le_succ (IH t (by omega))
          · omega

/-- The purged position lists are strictly ascending. -/
theorem b2jOf_pairwise (a : List String) (s : String) :
    (b2jOf a s).Pairwise (· < ·) := by
  unfold b2jOf positionsOf
  split
  · exact (List.pairwise_lt_range _).filter _
  · exact List.Pairwise.nil

/-- The inner loop builds exactly the `chainA` row in its `j2len` map. -/
theorem flmRow_fst (a : List String) (i : Nat) (prev : Nat → Nat)
    (hprev : ∀ j, j ∈ b2jOf a (a.getD i "") →
      (if j = 0 then 0 else prev (j - 1)) + 1 = chainA a i j) :
    ∀ (qs : List Nat) (cur : Nat → Nat) (best : Best),
      (∀ j ∈ qs, j ∈ b2jOf a (a.getD i "")) →
      ∀ x, (flmRow 0 a.length i prev qs cur best).1 x =
        if x ∈ qs then chainA a i x else cur x := by
  intro qs
  induction qs with
  | nil =>
      intro cur best _ x
      simp [flmRow]
  | cons j qs' IH =>
      intro cur best hqs x
      have hj : j ∈ b2jOf a (a.getD i "") := hqs j (List.mem_cons_self j qs')
      have hjlen : j < a.length := (mem_b2jOf.mp hj).2.1
      have hk := hprev j hj
      rw [flmRow, if_neg (Nat.not_lt_zero j), if_neg (not_le.mpr hjlen)]
      dsimp only
      rw [IH _ _ (fun y hy => hqs y (List.mem_cons_of_mem j hy)) x]
      by_cases hxq : x ∈ qs'
      · rw [if_pos hxq, if_pos (List.mem_cons_of_mem j hxq)]
      · rw [if_neg hxq]
        by_cases hxj : x = j
        · subst hxj
          rw [if_pos rfl, if_pos (List.mem_cons_self x qs'), hprev x hj]
        · rw [if_neg hxj, if_neg (by simp [List.mem_cons, hxj, hxq])]

/-- Best-match invariant of the inner loop on a pair of equal sequences:
starting from a diagonal best that dominates all earlier diagonal chains,
the loop leaves a diagonal best that also dominates the current row's
diagonal chain. -/
theorem flmRow_snd (a : List String) (i : Nat) (hi : i < a.length)
    (prev : Nat → Nat)
    (hprev : ∀ j, j ∈ b2jOf a (a.getD i "") →
      (if j = 0 then 0 else prev (j - 1)) + 1 = chainA a i j) :
    ∀ (qs : List Nat) (cur : Nat → Nat) (best : Best),
      (∀ j ∈ qs, j ∈ b2jOf a (a.getD i "")) →
      qs.Pairwise (· < ·) →
      best.i = best.j →
      best.i + best.size ≤ a.length →
      (∀ r, r < i → chainA a r r ≤ best.size) →
      (i ∈ b2jOf a (a.getD i "") → i ∉ qs → chainA a i i ≤ best.size) →
      ((flmRow 0 a.length i prev qs cur best).2.i =
          (flmRow 0 a.length i prev qs cur best).2.j ∧
        (flmRow 0 a.length i prev qs cur best).2.i +
          (flmRow 0 a.length i prev qs cur best).2.size ≤ a.length ∧
        (∀ r, r < i → chainA a r r ≤ (flmRow 0 a.length i prev qs cur best).2.size) ∧
        (i ∈ b2jOf a (a.getD i "") →
          chainA a i i ≤ (flmRow 0 a.length i prev qs cur best).2.size)) := by
  intro qs
  induction qs with
  | nil =>
      intro cur best _ _ hd hb h3 h4
      simp only [flmRow]
      exact ⟨hd, hb, h3, fun hm => h4 hm (List.not_mem_nil i)⟩
  | cons j qs' IH =>
      intro cur best hqs hpw hd hb h3 h4
      have hj : j ∈ b2jOf a (a.getD i "") := hqs j (List.mem_cons_self j qs')
      have hjlen : j < a.length := (mem_b2jOf.mp hj).2.1
      have hk := hprev j hj
      rw [flmRow, if_neg (Nat.not_lt_zero j), if_neg (not_le.mpr hjlen)]
      dsimp only
      rw [hk]
      have hqs' : ∀ y ∈ qs', y ∈ b2jOf a (a.getD i "") :=
        fun y hy => hqs y (List.mem_cons_of_mem j hy)
      have hpw' : qs'.Pairwise (· < ·) := (List.pairwise_cons.mp hpw).2
      by_cases hlt : best.size < chainA a i j
      · rw [if_pos hlt]
        have hij : i = j := by
          rcases Nat.lt_trichotomy j i with hlt2 | heq | hgt
          · exfalso
            have h1 : chainA a i j ≤ chainA a j j := chainA_le_diag_right a i j
            have h2 : chainA a j j ≤ best.size := h3 j hlt2
            omega
          · exact heq.symm
          · exfalso
            have hmi : i ∈ b2jOf a (a.getD i "") := member_self hj hi
            have hni : i ∉ j :: qs' := by
              intro hin
              rcases List.mem_cons.mp hin with h | h
              · omega
              · have := (List.pairwise_cons.mp hpw).1 i h
                omega
            have h4' := h4 hmi hni
            have h1 : chainA a i j ≤ chainA a i i := chainA_le_diag_left a i j hi
            omega
        subst hij
        have hkle : chainA a i i ≤ i + 1 := chainA_diag_le a i
        refine IH _ _ hqs' hpw' rfl ?_ ?_ ?_
        · show i + 1 - chainA a i i + chainA a i i ≤ a.length
          omega
        · intro r hr
          have := h3 r hr
          show chainA a r r ≤ chainA a i i
          omega
        · intro _ _
          show chainA a i i ≤ chainA a i i
          exact le_rfl
      · rw [if_neg hlt]
        refine IH _ _ hqs' hpw' hd hb h3 ?_
        intro hmi hnq'
        by_cases hij : i = j
        · subst hij
          exact not_lt.mp hlt
        · refine h4 hmi ?_
          intro hin
          rcases List.mem_cons.mp hin with h | h
          · exact hij h
          · exact hnq' h

/-- The main loop of `find_longest_match` on a pair of equal sequences
returns a diagonal best fitting inside the sequence. -/
theorem flmRows_self_spec (a : List String) :
    ∀ (fuel i : Nat) (prev : Nat → Nat) (best : Best),
      i + fuel = a.length →
      (∀ j, j ∈ b2jOf a (a.getD i "") →
        (if j = 0 then 0 else prev (j - 1)) + 1 = chainA a i j) →
      best.i = best.j →
      best.i + best.size ≤ a.length →
      (∀ r, r < i → chainA a r r ≤ best.size) →
      ((flmRows a (b2jOf a) 0 a.length i fuel prev best).i =
          (flmRows a (b2jOf a) 0 a.length i fuel prev best).j ∧
        (flmRows a (b2jOf a) 0 a.length i fuel prev best).i +
          (flmRows a (b2jOf a) 0 a.length i fuel prev best).size ≤ a.length) := by
  intro fuel
  induction fuel with
  | zero =>
      intro i prev best _ _ hd hb _
      simp only [flmRows]
      exact ⟨hd, hb⟩
  | succ f IH =>
      intro i prev best hlen hprev hd hb h3
      have hi : i < a.length := by omega
      rcases hres : flmRow 0 a.length i prev (b2jOf a (a.getD i "")) (fun _ => 0) best
        with ⟨cur1, best1⟩
      have hrow := flmRow_snd a i hi prev hprev (b2jOf a (a.getD i ""))
        (fun _ => 0) best (fun j hj => hj) (b2jOf_pairwise a _) hd hb h3
        (fun hm hnm => absurd hm hnm)
      have hcur := flmRow_fst a i prev hprev (b2jOf a (a.getD i ""))
        (fun _ => 0) best (fun j hj => hj)
      rw [hres] at hrow hcur
      simp only at hrow hcur
      simp only [flmRows, hres]
      have hcur' : ∀ x, cur1 x = chainA a i x := by
        intro x
        rw [hcur x]
        by_cases hx : x ∈ b2jOf a (a.getD i "")
        · rw [if_pos hx]
        · rw [if_neg hx, chainA_eq_zero_of_not_mem hx]
      refine IH (i + 1) cur1 best1 (by omega) ?_ hrow.1 hrow.2.1 ?_
      · intro j hj
        match j with
        | 0 =>
            show 0 + 1 = chainA a (i + 1) 0
            show 0 + 1 = (if 0 ∈ b2jOf a (a.getD (i + 1) "") then 1 else 0)
            rw [if_pos hj]
        | t + 1 =>
            show cur1 t + 1 = chainA a (i + 1) (t + 1)
            rw [hcur' t]
            show chainA a i t + 1 =
              (if t + 1 ∈ b2jOf a (a.getD (i + 1) "") then chainA a i t + 1 else 0)
            rw [if_pos hj]
      · intro r hr
        rcases Nat.lt_or_ge r i with h | h
        · exact hrow.2.2.1 r h
        · have hri : r = i := by omega
          subst hri
          by_cases hm : r ∈ b2jOf a (a.getD r "")
          · exact hrow.2.2.2 hm
          · rw [chainA_eq_zero_of_not_mem hm]
            exact Nat.zero_le _

/-- The backward extension loop turns a diagonal match into one starting
at the origin. -/
theorem extendBackAux_diag (a : List String) : ∀ (m s : Nat),
    extendBackAux a a 0 0 m ⟨m, m, s⟩ = ⟨0, 0, s + m⟩ := by
  intro m
  induction m with
  | zero =>
      intro s
      simp [extendBackAux]
  | succ m IH =>
      intro s
      rw [extendBackAux]
      rw [if_pos ⟨Nat.succ_pos m, Nat.succ_pos m, rfl, rfl⟩]
      simp only [Nat.add_sub_cancel]
      rw [IH (s + 1)]
      have : s + 1 + m = s + (m + 1) := by omega
      rw [this]

/-- The forward extension loop grows a match at the origin to the full
diagonal. -/
theorem extendFwdAux_diag (a : List String) : ∀ (fuel s : Nat),
    fuel = a.length - s → s ≤ a.length →
    extendFwdAux a a a.length a.length fuel ⟨0, 0, s⟩ = ⟨0, 0, a.length⟩ := by
  intro fuel
  induction fuel with
  | zero =>
      intro s h1 h2
      have hs : s = a.length := by omega
      subst hs
      simp [extendFwdAux]
  | succ f IH =>
      intro s h1 h2
      have hs : s < a.length := by omega
      rw [extendFwdAux]
      rw [if_pos ⟨by omega, by omega, rfl, rfl⟩]
      exact IH (s + 1) (by omega) (by omega)

/-- `find_longest_match` over the full range of a pair of equal sequences
returns the whole diagonal. -/
theorem flm_self (a : List String) :
    flm a a (b2jOf a) 0 a.length 0 a.length = ⟨0, 0, a.length⟩ := by
  unfold flm
  have hprev0 : ∀ j, j ∈ b2jOf a (a.getD 0 "") →
      (if j = 0 then 0 else (fun _ => 0 : Nat → Nat) (j - 1)) + 1 = chainA a 0 j := by
    intro j hj
    show (if j = 0 then 0 else 0) + 1 = chainA a 0 j
    show (if j = 0 then 0 else 0) + 1 = (if j ∈ b2jOf a (a.getD 0 "") then 1 else 0)
    rw [if_pos hj, ite_self]
  have h0 := flmRows_self_spec a (a.length - 0) 0 (fun _ => 0) ⟨0, 0, 0⟩
    (by omega) hprev0 rfl (by simp) (fun r hr => absurd hr (Nat.not_lt_zero r))
  rcases hb0 : flmRows a (b2jOf a) 0 a.length 0 (a.length - 0) (fun _ => 0) ⟨0, 0, 0⟩
    with ⟨bi, bj, bs⟩
  rw [hb0] at h0
  simp only at h0
  obtain ⟨hdiag, hsum⟩ := h0
  subst hdiag
  dsimp only
  rw [show extendBack a a 0 0 ⟨bi, bi, bs⟩ = ⟨0, 0, bs + bi⟩ from extendBackAux_diag a bi bs]
  rw [show extendFwd a a a.length a.length ⟨0, 0, bs + bi⟩ = ⟨0, 0, a.length⟩ from
    extendFwdAux_diag a (a.length - (bs + bi)) (bs + bi) rfl (by omega)]
  show extendFwdJunk a a a.length a.length
    (extendBackJunkAux a a 0 0 0 ⟨0, 0, a.length⟩) = ⟨0, 0, a.length⟩
  rw [extendBackJunkAux]
  show extendFwdJunkAux a a a.length a.length (a.length - a.length) ⟨0, 0, a.length⟩ =
    ⟨0, 0, a.length⟩
  rw [Nat.sub_self, extendFwdJunkAux]

/-- Block collection on a pair of equal sequences: the whole diagonal (or
nothing when the sequence is empty). -/
theorem matchBlocksRec_self (a : List String) :
    matchBlocksRec a a (b2jOf a) (a.length + a.length + 1) 0 a.length 0 a.length =
      if a.length = 0 then [] else [(0, 0, a.length)] := by
  rw [matchBlocksRec]
  simp only [flm_self]
  by_cases hn : a.length = 0
  · simp [hn]
  · simp [hn]

/-- `get_matching_blocks` on a pair of equal sequences. -/
theorem matchingBlocks_self (a : List String) :
    matchingBlocks a a =
      if a.length = 0 then [(0, 0, 0)]
      else [(0, 0, a.length), (a.length, a.length, 0)] := by
  unfold matchingBlocks
  rw [matchBlocksRec_self]
  by_cases hn : a.length = 0
  · simp [hn, mergeBlocks]
  · simp [hn, mergeBlocks]

/-- `get_opcodes` on a pair of equal sequences: empty, or one `equal`
opcode spanning everything. -/
theorem getOpcodes_self (a : List String) :
    getOpcodes a a =
      if a.length = 0 then []
      else [⟨Tag.equal, 0, a.length, 0, a.length⟩] := by
  unfold getOpcodes
  rw [matchingBlocks_self]
  by_cases hn : a.length = 0
  · simp [hn, opcodesLoop]
  · simp [hn, opcodesLoop]

/-- `get_grouped_opcodes` on a pair of equal sequences yields no group: a
lone `equal` opcode (or the dummy one) is trimmed to context and then
dropped. -/
theorem groupedOpcodes_self (a : List String) : groupedOpcodes a a = [] := by
  simp only [groupedOpcodes]
  rw [getOpcodes_self]
  by_cases hn : a.length = 0
  · simp only [if_pos hn]
    decide
  · simp only [if_neg hn]
    rw [if_neg (by simp)]
    show groupedLoop CONTEXT
      (fixLast CONTEXT (fixFirst CONTEXT [⟨Tag.equal, 0, a.length, 0, a.length⟩])) [] = []
    rw [show fixFirst CONTEXT [⟨Tag.equal, 0, a.length, 0, a.length⟩] =
        [⟨Tag.equal, a.length - 3, a.length, a.length - 3, a.length⟩] by
      simp [fixFirst, CONTEXT]]
    rw [show fixLast CONTEXT [⟨Tag.equal, a.length - 3, a.length, a.length - 3, a.length⟩] =
        [⟨Tag.equal, a.length - 3, a.length, a.length - 3, a.length⟩] by
      simp only [fixLast, CONTEXT]
      have hmin : min a.length (a.length - 3 + 3) = a.length := by omega
      rw [hmin]]
    rw [groupedLoop]
    rw [if_neg (by
      simp only [CONTEXT]
      intro hand
      exact absurd hand.2 (by omega))]
    rw [groupedLoop]
    rw [if_neg (by simp [groupedLoop])]

/-- The edit script of a pair of equal sequences is empty. -/
theorem editScript_self (a : List String) : editScript a a = [] := by
  unfold editScript
  rw [groupedOpcodes_self]
  rfl

/-- The emitted unified diff of a pair of equal sequences has no lines. -/
theorem unifiedDiffLines_self (a : List String) (ft tt : String) :
    unifiedDiffLines a a ft tt = [] := by
  unfold unifiedDiffLines
  rw [groupedOpcodes_self]

/-- C9: for every pair of identical input snapshots the diff computation
returns an edit script with zero ADD operations and zero REMOVE
operations, and the change metrics of a pair of identical texts report
`lines_added = 0` and `lines_removed = 0`. -/
theorem identical_inputs_zero_changes :
    (∀ a : List String,
      ((editScript a a).filter EditOp.isAdd).length = 0 ∧
      ((editScript a a).filter EditOp.isRemove).length = 0) ∧
    (∀ old_code ft tt : String,
      (computeMetrics old_code old_code ft tt).lines_added = 0 ∧
      (computeMetrics old_code old_code ft tt).lines_removed = 0) := by
  constructor
  · intro a
    rw [editScript_self]
    exact ⟨rfl, rfl⟩
  · intro s ft tt
    have hdiff : fullDiffText (pySplitlines s) (pySplitlines s) ft tt = "" := by
      unfold fullDiffText
      rw [unifiedDiffLines_self]
      rfl
    constructor
    · rw [computeMetrics_lines_added]
      unfold linesAdded
      rw [hdiff]
      rfl
    · rw [computeMetrics_lines_removed]
      unfold linesRemoved
      rw [hdiff]
      rfl

end ImpactAnalyzer
